import Mathlib

/-!
Verification development for the orbit coverage platform
(coverage-consumer, manager, diff_coverage, coverage-api, repo_manager).

Python strings are embedded as `List Char`; each definition below is a
direct translation of the Python function it is named after.
-/

namespace Orbit

abbrev PyStr := List Char

/-- Python `str.split(sep)` for a one-character separator: splits at every
occurrence, keeping empty pieces (`"a,,b".split(',') == ['a','','b']`). -/
def pySplitOn (sep : Char) : List Char → List PyStr
  | [] => [[]]
  | c :: cs =>
    let rest := pySplitOn sep cs
    if c = sep then [] :: rest
    else
      match rest with
      | [] => [[c]]
      | r :: rs => (c :: r) :: rs

/-- Whitespace test used by Python `str.strip()` / `str.split()`. -/
def pyIsSpace (c : Char) : Bool := c.isWhitespace

/-- Python `str.strip()`: drop whitespace from both ends. -/
def pyStrip (cs : PyStr) : PyStr :=
  ((cs.dropWhile pyIsSpace).reverse.dropWhile pyIsSpace).reverse

/-- Helper of `pyWords`: `acc` is the current token, reversed. -/
def pyWordsAux : PyStr → PyStr → List PyStr
  | acc, [] => if acc = [] then [] else [acc.reverse]
  | acc, c :: cs =>
    if pyIsSpace c then
      if acc = [] then pyWordsAux [] cs else acc.reverse :: pyWordsAux [] cs
    else pyWordsAux (c :: acc) cs

/-- Python `str.split()` with no argument: split on whitespace runs,
discarding empty tokens. -/
def pyWords (cs : PyStr) : List PyStr := pyWordsAux [] cs

/-- `beginsWith pre l` is Python `l.startswith(pre)`. -/
def beginsWith : PyStr → PyStr → Bool
  | [], _ => true
  | _ :: _, [] => false
  | p :: ps, c :: cs => p == c && beginsWith ps cs

/-- Digit-run check for Python `int(str)` after the first character:
single underscores are allowed between digits. -/
def pyDigitsCore : List Char → Bool
  | [] => true
  | c :: cs =>
    if c = '_' then
      match cs with
      | [] => false
      | d :: ds => d.isDigit && pyDigitsCore ds
    else c.isDigit && pyDigitsCore cs

/-- Whole digit-part check for Python `int(str)`: nonempty, begins with a
digit, underscores only between digits. -/
def pyDigitsOk : List Char → Bool
  | [] => false
  | c :: cs => c.isDigit && pyDigitsCore cs

/-- Numeric value of a digit run, ignoring underscores. -/
def digitsToNat (cs : List Char) : Nat :=
  cs.foldl (fun a c => if c = '_' then a else a * 10 + (c.toNat - 48)) 0

/-- Python `int(str)`: strip whitespace, optional sign, digits
(with underscores); `none` models the `ValueError`. -/
def pyInt? (cs : PyStr) : Option Int :=
  let s := pyStrip cs
  match s with
  | '+' :: ds => if pyDigitsOk ds then some ((digitsToNat ds : Nat) : Int) else none
  | '-' :: ds => if pyDigitsOk ds then some (-((digitsToNat ds : Nat) : Int)) else none
  | ds => if pyDigitsOk ds then some ((digitsToNat ds : Nat) : Int) else none

/-- `tok.rfind(':')` followed by the two slices `tok[:idx]` / `tok[idx+1:]`:
`some (before, after)` splits at the LAST colon; `none` models `rfind == -1`. -/
def rfindSplit : PyStr → Option (PyStr × PyStr)
  | [] => none
  | c :: cs =>
    match rfindSplit cs with
    | some (pre, post) => some (c :: pre, post)
    | none => if c = ':' then some ([], cs) else none

/-- One coverage block as produced by `parse_goc_coverage`
(the Python dict with keys start_line .. hit). -/
structure RangeItem where
  start_line : Int
  start_col : Int
  end_line : Int
  end_col : Int
  statements : Int
  hit : Int
deriving DecidableEq, Repr

/-- The numeric tail of one trace line: `range_str` must split at a comma
into two `line.col` pairs, and all six fields must pass `int(...)`. -/
def parseRangeNums (rangeStr stmts cnt : PyStr) : Option RangeItem :=
  match pySplitOn ',' rangeStr with
  | [sp, ep] =>
    match pySplitOn '.' sp, pySplitOn '.' ep with
    | [sl, sc], [el, ec] =>
      match pyInt? sl, pyInt? sc, pyInt? el, pyInt? ec, pyInt? stmts, pyInt? cnt with
      | some a, some b, some c, some d, some st, some h => some ⟨a, b, c, d, st, h⟩
      | _, _, _, _, _, _ => none
    | _, _ => none
  | _ => none

/-- After the whitespace split: split the first token at its LAST colon
(`rfind`), then parse the numeric fields; the resulting pair is the
`result[file_path].append(range_item)` contribution of the line. -/
def parseGocFields (tok stmts cnt : PyStr) : Option (PyStr × RangeItem) :=
  match rfindSplit tok with
  | none => none
  | some (fp, rangeStr) => (parseRangeNums rangeStr stmts cnt).map (fun it => (fp, it))

/-- `parse_goc_coverage`'s handling of one line of the trace:
strip; skip blank and `mode:` lines; split on whitespace and require at
least three tokens; then `parseGocFields`; `none` on any malformed line. -/
def parseGocLine (line : PyStr) : Option (PyStr × RangeItem) :=
  if pyStrip line = [] then none
  else if beginsWith "mode:".data (pyStrip line) then none
  else
    match pyWords (pyStrip line) with
    | tok :: stmts :: cnt :: _ => parseGocFields tok stmts cnt
    | _ => none

/-- Append `v` to the entry of key `k` of an insertion-ordered association
list, creating the entry at the end if absent (Python dict + list append). -/
def assocAppend (acc : List (α × List β)) (k : α) (v : β) [BEq α] : List (α × List β) :=
  match acc with
  | [] => [(k, [v])]
  | (k0, vs) :: rest =>
    if k0 == k then (k0, vs ++ [v]) :: rest else (k0, vs) :: assocAppend rest k v

/-- Group an ordered list of key-value pairs into an insertion-ordered
association list (the `result` dict built by the parser's loop, and the
`file_to_hunks` dicts). -/
def groupPairs [BEq α] (ps : List (α × β)) : List (α × List β) :=
  ps.foldl (fun acc p => assocAppend acc p.1 p.2) []

/-- `parse_goc_coverage(raw)`: split into lines, parse each, and collect
the successes into the `file_path -> [block]` mapping. -/
def parse_goc_coverage (raw : PyStr) : List (PyStr × List RangeItem) :=
  groupPairs ((pySplitOn '\n' raw).filterMap parseGocLine)

/-- `parse_pyca_coverage` delegates to the goc parser. -/
def parse_pyca_coverage (raw : PyStr) : List (PyStr × List RangeItem) :=
  parse_goc_coverage raw

/-! ## coverage-consumer/main.py: retry accounting -/

/-- A value stored under the `x-retry-count` header key. -/
inductive HVal
  | int (n : Int)
  | str (s : PyStr)
  | other
deriving DecidableEq, Repr

/-- `get_retry_count(headers)`. The outer `Option` is the `headers` dict
being `None`/empty; the inner `Option` is presence of the
`x-retry-count` key. A string value goes through `int(...)`, falling
back to 0 on `ValueError`; other types fall through to 0. -/
def get_retry_count : Option (Option HVal) → Int
  | none => 0
  | some none => 0
  | some (some (.int n)) => n
  | some (some (.str s)) => (pyInt? s).getD 0
  | some (some .other) => 0

/-- Observable broker actions of one `callback` invocation on a delivery
whose processing raises. -/
inductive CbEvent
  | attempt (rc : Int)
  | republish (newRc : Int)
  | ackOriginal
  | nackNoRequeue
deriving DecidableEq, Repr

/-- Broker-event trace of repeatedly delivering a message whose
`process_coverage_report` call always raises: each delivery is one
processing attempt; at `retry_count >= MAX_RETRY_COUNT (= 10)` the
message is nacked without requeue, otherwise the original body is
republished with `x-retry-count := retry_count + 1` and the original is
acked. `fuel` bounds the number of deliveries simulated. -/
def failEvents : Nat → Option (Option HVal) → List CbEvent
  | 0, _ => []
  | fuel + 1, headers =>
    let rc := get_retry_count headers
    if rc ≥ 10 then [.attempt rc, .nackNoRequeue]
    else
      [.attempt rc, .republish (rc + 1), .ackOriginal] ++
        failEvents fuel (some (some (.int (rc + 1))))

/-- Number of processing attempts in a consumer trace. -/
def countAttempts (evs : List CbEvent) : Nat :=
  (evs.filter (fun e => match e with | .attempt _ => true | _ => false)).length

/-- The retry counts of the processing attempts in a consumer trace. -/
def attemptCounts (evs : List CbEvent) : List Int :=
  evs.filterMap (fun e => match e with | .attempt rc => some rc | _ => none)

/-- The header values republished in a consumer trace. -/
def republishValues (evs : List CbEvent) : List Int :=
  evs.filterMap (fun e => match e with | .republish v => some v | _ => none)

/-! ## models.py rows and manager.py ingestion -/

/-- A CoverageConfig row. -/
structure Config where
  repo_id : PyStr
  repo_name : PyStr
  repo_url : PyStr
  base_branch : PyStr
  exclude_dirs : PyStr
  exclude_files : PyStr
deriving DecidableEq, Repr

/-- A CoverageReport row. -/
structure Report where
  repo_id : PyStr
  repo_name : PyStr
  branch : PyStr
  base_branch : PyStr
  commit : PyStr
  base_commit : PyStr
  ci_provider : PyStr
  ci_pipeline_id : PyStr
  ci_job_id : PyStr
  coverage_format : PyStr
  coverage_raw : PyStr
  status : PyStr
  error_message : PyStr
  created_at : Int
  updated_at : Int
deriving DecidableEq, Repr

/-- A CoverageFile row (`id` assigned at flush time). -/
structure CovFile where
  id : Nat
  repo_id : PyStr
  branch : PyStr
  file_path : PyStr
  created_at : Int
  updated_at : Int
deriving DecidableEq, Repr

/-- A CoverageRange row. -/
structure RangeRow where
  file_id : Nat
  start_line : Int
  start_col : Int
  end_line : Int
  end_col : Int
  statements : Int
  hit : Int
  created_at : Int
deriving DecidableEq, Repr

/-- The relational store: row lists in insertion order plus the id counter
the session uses for flushed CoverageFile rows. -/
structure DB where
  configs : List Config
  reports : List Report
  files : List CovFile
  ranges : List RangeRow
  nextFileId : Nat
deriving DecidableEq, Repr

/-- A decoded report message (`CoverageReportMessage` with the `ci` and
`coverage` dict fields already extracted with their defaults). -/
structure Msg where
  repo : PyStr
  repo_id : PyStr
  branch : PyStr
  commit : PyStr
  ci_provider : PyStr
  ci_pipeline_id : PyStr
  ci_job_id : PyStr
  format : PyStr
  raw : PyStr
  timestamp : Int
deriving DecidableEq, Repr

/-- `db.query(CoverageConfig).filter(repo_id == ...).first()`. -/
def lookupConfig (db : DB) (rid : PyStr) : Option Config :=
  db.configs.find? (fun c => c.repo_id == rid)

/-- `db.query(CoverageReport).filter(repo_id == .., branch == ..).first()`. -/
def lookupReport (db : DB) (rid branch : PyStr) : Option Report :=
  db.reports.find? (fun r => r.repo_id == rid && r.branch == branch)

/-- Replace the first element satisfying `p` (the row `first()` returned,
which the ORM then mutates in place). -/
def updateFirst (p : α → Bool) (g : α → α) : List α → List α
  | [] => []
  | x :: xs => if p x then g x :: xs else x :: updateFirst p g xs

/-- Last element satisfying `p`. Models looking a path up in the
`{f.file_path: f for f in existing_files}` dict, whose comprehension
keeps the last row on duplicates (rows are unique in well-formed states,
where this equals the first match). -/
def findLast? (p : α → Bool) : List α → Option α
  | [] => none
  | x :: xs =>
    match findLast? p xs with
    | some y => some y
    | none => if p x then some x else none

/-- Replace the last element satisfying `p` (see `findLast?`). -/
def updateLast (p : α → Bool) (g : α → α) : List α → List α
  | [] => []
  | x :: xs =>
    if xs.any p then x :: updateLast p g xs
    else if p x then g x :: xs
    else x :: xs

/-- Field mutation of the existing report in the update branch of
`process_coverage_report` (created_at, base_branch and base_commit are
not touched). -/
def mkUpdatedReport (msg : Msg) (repoName : PyStr) (now : Int) (r : Report) : Report :=
  { r with
    repo_name := repoName
    commit := msg.commit
    ci_provider := msg.ci_provider
    ci_pipeline_id := msg.ci_pipeline_id
    ci_job_id := msg.ci_job_id
    coverage_format := msg.format
    coverage_raw := msg.raw
    status := "processing".data
    updated_at := now }

/-- The fresh report row created in the insert branch (base_branch comes
from `get_base_branch_for_repo`, base_commit starts empty). -/
def mkNewReport (msg : Msg) (repoName baseBranch : PyStr) (now : Int) : Report :=
  { repo_id := msg.repo_id
    repo_name := repoName
    branch := msg.branch
    base_branch := baseBranch
    commit := msg.commit
    base_commit := []
    ci_provider := msg.ci_provider
    ci_pipeline_id := msg.ci_pipeline_id
    ci_job_id := msg.ci_job_id
    coverage_format := msg.format
    coverage_raw := msg.raw
    status := "processing".data
    error_message := []
    created_at := now
    updated_at := now }

/-- Format dispatch of `process_coverage_report`: goc, pyca (with the
backward-compatible `pca` alias) and jacoco all use the goc line
grammar; `none` models the unsupported-format error. -/
def parse_by_format (fmt raw : PyStr) : Option (List (PyStr × List RangeItem)) :=
  if fmt = "goc".data then some (parse_goc_coverage raw)
  else if fmt = "pyca".data ∨ fmt = "pca".data then some (parse_pyca_coverage raw)
  else if fmt = "jacoco".data then some (parse_goc_coverage raw)
  else none

/-- A new CoverageRange row for file `fid` built from a parsed block. -/
def mkRangeRow (fid : Nat) (ts : Int) (r : RangeItem) : RangeRow :=
  { file_id := fid
    start_line := r.start_line
    start_col := r.start_col
    end_line := r.end_line
    end_col := r.end_col
    statements := r.statements
    hit := r.hit
    created_at := ts }

/-- Key match for a CoverageFile row. -/
def fileKeyIs (rid branch fp : PyStr) (f : CovFile) : Bool :=
  f.repo_id == rid && f.branch == branch && f.file_path == fp

/-- One iteration of the file loop of `process_coverage_report`: upsert
the CoverageFile row for `entry.1` (update `updated_at`, or create a row
with the next flushed id), delete every CoverageRange row with that
`file_id`, and insert the freshly parsed set. -/
def processOneFile (rid branch : PyStr) (ts : Int) (db : DB)
    (entry : PyStr × List RangeItem) : DB :=
  match findLast? (fileKeyIs rid branch entry.1) db.files with
  | some f0 =>
    let fid := f0.id
    { db with
      files := updateLast (fileKeyIs rid branch entry.1)
        (fun f => { f with updated_at := ts }) db.files
      ranges := db.ranges.filter (fun r => !(r.file_id == fid)) ++
        entry.2.map (mkRangeRow fid ts) }
  | none =>
    let fid := db.nextFileId
    { db with
      files := db.files ++ [⟨fid, rid, branch, entry.1, ts, ts⟩]
      ranges := db.ranges.filter (fun r => !(r.file_id == fid)) ++
        entry.2.map (mkRangeRow fid ts)
      nextFileId := fid + 1 }

/-- The whole file loop. -/
def processFiles (rid branch : PyStr) (ts : Int)
    (entries : List (PyStr × List RangeItem)) (db : DB) : DB :=
  entries.foldl (processOneFile rid branch ts) db

/-- Mutate the report row the handler is holding (the first row matching
the `(repo_id, branch)` key; unique in well-formed states). -/
def setReport (db : DB) (rid branch : PyStr) (g : Report → Report) : DB :=
  { db with
    reports := updateFirst (fun r => r.repo_id == rid && r.branch == branch) g db.reports }

/-- The report upsert of `process_coverage_report`: mutate the existing
`(repo_id, branch)` row in place, or insert a fresh one. -/
def ingestUpsertReport (db0 : DB) (msg : Msg) (now : Int) (repoName baseBranch : PyStr) : DB :=
  match lookupReport db0 msg.repo_id msg.branch with
  | some _ =>
    { db0 with
      reports := updateFirst (fun r => r.repo_id == msg.repo_id && r.branch == msg.branch)
        (mkUpdatedReport msg repoName now) db0.reports }
  | none =>
    { db0 with reports := db0.reports ++ [mkNewReport msg repoName baseBranch now] }

/-- Environment for the best-effort repo-materialization phase:
`cloneTarget`/`cloneBase`/`cloneBase2` are `clone_or_update_repo`
outcomes (`none` = exception, `some b` = returned `b`), `baseResolved`
is `get_base_commit_from_git` and `baseWorktreeExists` is the
`os.path.exists(worktree_dir)` probe. -/
structure MatEnv where
  cloneTarget : Option Bool
  baseResolved : Option PyStr
  cloneBase : Option Bool
  baseWorktreeExists : Bool
  cloneBase2 : Option Bool
deriving DecidableEq, Repr

/-- The tail of the success path: when the target clone succeeded and the
report's `base_commit` (`bc0`, read before the file loop) is empty, a
resolved non-empty base commit is stored on the report; then the report
is marked `completed` with `updated_at = rangesTs`. -/
def ingestFinalize (db2 : DB) (msg : Msg) (rangesTs : Int) (env : MatEnv) (bc0 : PyStr) : DB :=
  let repoCloned := env.cloneTarget == some true
  let db3 :=
    if repoCloned && bc0.isEmpty then
      match env.baseResolved with
      | some bc =>
        if bc ≠ [] then setReport db2 msg.repo_id msg.branch (fun r => { r with base_commit := bc })
        else db2
      | none => db2
    else db2
  setReport db3 msg.repo_id msg.branch (fun r =>
    { r with status := "completed".data, updated_at := rangesTs })

/-- Observable steps of `process_coverage_report`, in program order. -/
inductive Ev
  | configCheck
  | upsertReport
  | fileUpsert (fp : PyStr)
  | materializeTarget
  | resolveBase
  | materializeBase
  | ensureBaseWorktree
  | setCompleted
  | commitTx
deriving DecidableEq, Repr

/-- Result of one `process_coverage_report` call as the consumer sees it. -/
inductive ProcResult
  | ok
  | raised
deriving DecidableEq, Repr

/-- Post-state, outcome and step trace of one call. -/
structure ProcOut where
  db : DB
  result : ProcResult
  trace : List Ev
deriving DecidableEq, Repr

/-- `process_coverage_report(msg)`.

`now`, `updateNow` and `rangesTs` are the three `time.time()` reads
(transaction start, failure-path update, ranges timestamp). `db` is the
committed pre-state; the returned `db` is the committed post-state (on
the raising paths the transaction was rolled back or already committed,
exactly as in the source). The repo-materialization phase runs BEFORE
`db.commit()`; its failures are swallowed. -/
def process_coverage_report (db0 : DB) (msg : Msg) (now updateNow rangesTs : Int)
    (env : MatEnv) : ProcOut :=
  match lookupConfig db0 msg.repo_id with
  | none => ⟨db0, .ok, [.configCheck]⟩
  | some config =>
    let db1 : DB := ingestUpsertReport db0 msg now config.repo_name config.base_branch
    let bc0 : PyStr := ((lookupReport db1 msg.repo_id msg.branch).map Report.base_commit).getD []
    match parse_by_format msg.format msg.raw with
    | none =>
      -- unsupported format: mark failed, commit, raise
      let db2 := setReport db1 msg.repo_id msg.branch (fun r =>
        { r with status := "failed".data
                 error_message := "unsupported coverage format: ".data ++ msg.format
                 updated_at := updateNow })
      ⟨db2, .raised, [.configCheck, .upsertReport, .commitTx]⟩
    | some entries =>
      let db2 := processFiles msg.repo_id msg.branch rangesTs entries db1
      let repoCloned := env.cloneTarget == some true
      let baseTrace1 : List Ev :=
        if repoCloned && bc0.isEmpty then [.resolveBase] else []
      let db4 := ingestFinalize db2 msg rangesTs env bc0
      let baseTrace2 : List Ev :=
        if repoCloned && bc0.isEmpty then
          match env.baseResolved with
          | some bc => if bc ≠ [] then [.materializeBase] else []
          | none => []
        else []
      let bcCur : PyStr := ((lookupReport db4 msg.repo_id msg.branch).map Report.base_commit).getD []
      let baseTrace3 : List Ev :=
        if repoCloned && !bcCur.isEmpty then [.ensureBaseWorktree] else []
      ⟨db4, .ok,
        [.configCheck, .upsertReport] ++ entries.map (fun e => .fileUpsert e.1) ++
          [.materializeTarget] ++ baseTrace1 ++ baseTrace2 ++ baseTrace3 ++
          [.setCompleted, .commitTx]⟩

/-! ## diff_coverage.py -/

/-- `DiffCoverageStatus`. -/
inductive DiffStatus
  | new_uncovered
  | new_covered
  | coverage_degraded
  | coverage_improved
deriving DecidableEq, Repr

/-- `CoverageBlock`. -/
structure CoverageBlock where
  start_line : Int
  start_col : Int
  end_line : Int
  end_col : Int
  statements : Int
  hit : Int
deriving DecidableEq, Repr

/-- `CoverageBlock.is_covered`. -/
def CoverageBlock.is_covered (b : CoverageBlock) : Bool := b.hit > 0

/-- `CoverageBlock.covers_line`. -/
def CoverageBlock.covers_line (b : CoverageBlock) (n : Int) : Bool :=
  b.start_line ≤ n && n ≤ b.end_line

/-- `DiffHunk` (modified_lines is always left empty by the parser). -/
structure DiffHunk where
  file_path : PyStr
  old_start : Int
  old_count : Int
  new_start : Int
  new_count : Int
  added_lines : List Int
  deleted_lines : List Int
deriving DecidableEq, Repr

/-- The line numbers `range(start_line, end_line + 1)` of a block. -/
def blockLines (b : CoverageBlock) : List Int :=
  (List.range (b.end_line + 1 - b.start_line).toNat).map (fun k : Nat => b.start_line + (k : Int))

/-- `CoverageIndex.line_to_blocks` as an insertion-ordered association
list from line number to the blocks covering it. -/
abbrev CovIndex := List (Int × List CoverageBlock)

/-- `build_coverage_index`: expand every block over its inclusive line
range (blocks outer loop, lines inner loop, appending). -/
def build_coverage_index (blocks : List CoverageBlock) : CovIndex :=
  groupPairs (blocks.flatMap (fun b => (blockLines b).map (fun n => (n, b))))

/-- Dict lookup `line_to_blocks[n]` (`none` = key absent). -/
def idxLookup (idx : CovIndex) (n : Int) : Option (List CoverageBlock) :=
  (idx.find? (fun p => p.1 == n)).map Prod.snd

/-- `CoverageIndex.get_line_coverage`. -/
def get_line_coverage (idx : CovIndex) (n : Int) : Option Bool :=
  match idxLookup idx n with
  | none => none
  | some blocks =>
    if blocks.isEmpty then none
    else if blocks.any CoverageBlock.is_covered then some true
    else some false

/-- `CoverageIndex.get_line_hit_count`: max hit over the blocks of the
line, 0 when the line is not indexed. -/
def get_line_hit_count (idx : CovIndex) (n : Int) : Int :=
  match idxLookup idx n with
  | none => 0
  | some [] => 0
  | some (b :: bs) => bs.foldl (fun a x => max a x.hit) b.hit

/-- `DiffCoverageLine`. -/
structure DiffCoverageLine where
  line_number : Int
  status : DiffStatus
  hit_count : Int
  is_new : Bool
deriving DecidableEq, Repr

/-- `DiffCoverageFile`. -/
structure DiffCoverageFile where
  file_path : PyStr
  lines : List DiffCoverageLine
  new_uncovered_count : Nat
  new_covered_count : Nat
  coverage_degraded_count : Nat
  coverage_improved_count : Nat
deriving DecidableEq, Repr

/-- Insertion sort step for `sorted(...)` over line numbers. -/
def insertSorted (n : Int) : List Int → List Int
  | [] => [n]
  | x :: xs => if n ≤ x then n :: x :: xs else x :: insertSorted n xs

/-- Ascending sort of line numbers. -/
def sortInts (l : List Int) : List Int := l.foldr insertSorted []

/-- First-occurrence deduplication (the `set(...)` contents). -/
def dedupInts (l : List Int) : List Int :=
  l.foldl (fun acc x => if x ∈ acc then acc else acc ++ [x]) []

/-- `sorted(set(l))`. -/
def pySortedSet (l : List Int) : List Int := sortInts (dedupInts l)

/-- The per-line body of `merge_diff_and_coverage`: unknown verdict lines
are dropped, otherwise a record with the covered/uncovered status and
the line's max hit count is emitted. -/
def mergeLine (idx : CovIndex) (n : Int) : Option DiffCoverageLine :=
  match get_line_coverage idx n with
  | none => none
  | some covered =>
    some
      { line_number := n
        status := if covered then .new_covered else .new_uncovered
        hit_count := get_line_hit_count idx n
        is_new := true }

/-- Per-file body of `merge_diff_and_coverage`: union the hunks' added
lines, sort, classify each, count statuses. -/
def mkFileRecord (idx : CovIndex) (fp : PyStr) (hunks : List DiffHunk) : DiffCoverageFile :=
  let allAdded := pySortedSet (hunks.foldl (fun acc h => acc ++ h.added_lines) [])
  let lines := allAdded.filterMap (mergeLine idx)
  { file_path := fp
    lines := lines
    new_uncovered_count := (lines.filter (fun l => l.status == .new_uncovered)).length
    new_covered_count := (lines.filter (fun l => l.status == .new_covered)).length
    coverage_degraded_count := (lines.filter (fun l => l.status == .coverage_degraded)).length
    coverage_improved_count := (lines.filter (fun l => l.status == .coverage_improved)).length }

/-- `merge_diff_and_coverage(diff_hunks, new_coverage_index, old_coverage_index)`.
The old-index comparison is an unimplemented TODO in the source, so the
third argument is accepted and ignored. -/
def merge_diff_and_coverage (diff_hunks : List DiffHunk) (idx : CovIndex)
    (_oldIdx : Option CovIndex) : List DiffCoverageFile :=
  (groupPairs (diff_hunks.map (fun h => (h.file_path, h)))).map
    (fun e => mkFileRecord idx e.1 e.2)

/-- `DiffCoverageSummary` (`incremental_coverage_rate` as an exact
rational in place of the Python float). -/
structure DiffSummary where
  total_files : Nat
  total_new_lines : Nat
  new_uncovered_lines : Nat
  new_covered_lines : Nat
  coverage_degraded_lines : Nat
  coverage_improved_lines : Nat
  incremental_coverage_rate : ℚ
deriving DecidableEq, Repr

/-- The all-zero summary built inline for the empty-diff response. -/
def zeroSummary : DiffSummary := ⟨0, 0, 0, 0, 0, 0, 0⟩

/-- `generate_diff_coverage_summary`. -/
def generate_diff_coverage_summary (file_results : List DiffCoverageFile) : DiffSummary :=
  let newUncov := (file_results.map (fun f => f.new_uncovered_count)).sum
  let newCov := (file_results.map (fun f => f.new_covered_count)).sum
  let coverable := newCov + newUncov
  { total_files := file_results.length
    total_new_lines := (file_results.map (fun f => f.lines.length)).sum
    new_uncovered_lines := newUncov
    new_covered_lines := newCov
    coverage_degraded_lines := (file_results.map (fun f => f.coverage_degraded_count)).sum
    coverage_improved_lines := (file_results.map (fun f => f.coverage_improved_count)).sum
    incremental_coverage_rate :=
      if coverable > 0 then ((newCov : ℚ) / (coverable : ℚ)) * 100 else 0 }

/-! ## manager/diff_manager.py and the diff endpoint of coverage-api -/

/-- Environment of one `calculate_diff_coverage` call, holding the
outcomes of its external steps: `baseCommit` is
`get_base_commit_from_git` (`none` = total failure), `hunks` is
`parse_git_diff` (which returns `[]` on any git failure), and
`coverageRows` is the stored per-path coverage reachable through
`get_coverage_blocks_for_file` (worktree path reconciliation already
applied; an absent path yields no blocks). -/
structure DiffEnv where
  report : Option Report
  config : Option Config
  baseCommit : Option PyStr
  hunks : List DiffHunk
  coverageRows : List (PyStr × List CoverageBlock)
deriving DecidableEq, Repr

/-- `get_coverage_blocks_for_file` against the environment. -/
def coverageBlocksFor (env : DiffEnv) (fp : PyStr) : List CoverageBlock :=
  ((env.coverageRows.find? (fun p => p.1 == fp)).map Prod.snd).getD []

/-- The result dict of `calculate_diff_coverage` (Monaco payload is the
same data re-keyed, so it is not duplicated here). -/
structure DiffResult where
  files : List DiffCoverageFile
  summary : DiffSummary
  base_commit : PyStr
  base_branch : PyStr
deriving DecidableEq, Repr

/-- One iteration of the per-file loop of `calculate_diff_coverage`:
a file with no stored coverage blocks is skipped (`continue`); otherwise
its index is built and merged with its hunks. -/
def diffFoldStep (env : DiffEnv) (acc : List DiffCoverageFile)
    (e : PyStr × List DiffHunk) : List DiffCoverageFile :=
  if (coverageBlocksFor env e.1).isEmpty then acc
  else acc ++ merge_diff_and_coverage e.2 (build_coverage_index (coverageBlocksFor env e.1)) none

/-- `calculate_diff_coverage`: resolve the base commit (`None` on
failure makes the whole call return `None`); an empty diff returns the
empty file list with a zero summary; otherwise group hunks per file,
skip any file with no stored coverage blocks, merge and summarize.
(`get_bare_repo_path` is a pure path join and never falsy.) -/
def calculate_diff_coverage (env : DiffEnv) (base_branch : PyStr) : Option DiffResult :=
  match env.baseCommit with
  | none => none
  | some bc =>
    if env.hunks.isEmpty then
      some ⟨[], zeroSummary, bc, base_branch⟩
    else
      let file_results :=
        (groupPairs (env.hunks.map (fun h => (h.file_path, h)))).foldl (diffFoldStep env) []
      some ⟨file_results, generate_diff_coverage_summary file_results, bc, base_branch⟩

/-- Response of `GET /api/v1/coverage/reports/{id}/diff`: HTTP status
plus the diff payload on success. `bbParam` is the `base_branch` query
parameter (`get_base_branch_for_repo` reads the same Config row that was
just loaded, defaulting to master when absent — here it is present). -/
def get_diff_coverage (env : DiffEnv) (bbParam : Option PyStr) : Nat × Option DiffResult :=
  match env.report with
  | none => (404, none)
  | some _ =>
    match env.config with
    | none => (404, none)
    | some cfg =>
      let bb := match bbParam with
        | some b => if b = [] then cfg.base_branch else b
        | none => cfg.base_branch
      match calculate_diff_coverage env bb with
      | none => (500, none)
      | some res => (200, some res)

/-! ## manager/repo_manager.py: ensure_worktree and CommitLock -/

/-- Observable steps of `ensure_worktree`. -/
inductive WtEv
  | checkHead
  | remove
  | lockAttempt
  | sleep1
  | acquire
  | recheck
  | create
  | release
deriving DecidableEq, Repr

/-- Environment of one `ensure_worktree` call: filesystem probes, the
`git rev-parse HEAD` result (`none` = failure/exception), how many
initial `flock` attempts find the lock busy, the under-lock re-check,
and the `git worktree add` outcome. -/
structure WtEnv where
  worktreeExists : Bool
  dotGitExists : Bool
  headResult : Option PyStr
  lockBusy : Nat
  recheckExists : Bool
  createOk : Bool
deriving DecidableEq, Repr

/-- `CommitLock.__enter__`'s retry loop. `retry_count` is the loop
variable, `fuel = 30 - retry_count` witnesses `while retry_count <
max_retries`; the flock attempt at iteration `retry_count` succeeds iff
`retry_count ≥ busy`. Returns the event list (one `.lockAttempt` per
flock call, `.sleep1` for each 1-second wait) and whether the lock was
acquired (`false` = the final `raise`). -/
def lockLoop : Nat → Nat → Nat → List WtEv × Bool
  | 0, _, _ => ([], false)
  | fuel + 1, busy, rc =>
    if rc ≥ busy then ([.lockAttempt, .acquire], true)
    else if rc + 1 < 30 then
      let r := lockLoop fuel busy (rc + 1)
      (.lockAttempt :: .sleep1 :: r.1, r.2)
    else ([.lockAttempt], false)

/-- `CommitLock.__enter__` with `max_retries = 30`, starting at
`retry_count = 0`. -/
def commitLockEnter (busy : Nat) : List WtEv × Bool := lockLoop 30 busy 0

/-- The under-lock portion of `ensure_worktree` (everything inside
`with CommitLock(...)`), prefixed by the events that already happened.
If `__enter__` raises, `__exit__` does not run and the exception
propagates (result `false`). -/
def ensureWorktreeLocked (env : WtEnv) (pre : List WtEv) : Bool × List WtEv :=
  let r := commitLockEnter env.lockBusy
  if r.2 then
    if env.recheckExists then (true, pre ++ r.1 ++ [.recheck, .release])
    else (env.createOk, pre ++ r.1 ++ [.recheck, .create, .release])
  else (false, pre ++ r.1)

/-- `ensure_worktree(repo_url, commit)`: fast path when the worktree and
its `.git` exist and `HEAD` resolves to `commit`; a stale or unreadable
worktree is removed (before the lock); then the worktree is (re)created
under the per-commit lock. -/
def ensure_worktree (commit : PyStr) (env : WtEnv) : Bool × List WtEv :=
  if env.worktreeExists && env.dotGitExists then
    match env.headResult with
    | some h =>
      if h = commit then (true, [.checkHead])
      else ensureWorktreeLocked env [.checkHead, .remove]
    | none => ensureWorktreeLocked env [.checkHead, .remove]
  else ensureWorktreeLocked env []

/-! ## Statement-level definitions -/

/-- What the consumer callback does with the delivery after
`process_coverage_report` returns or raises (`rc` is the delivery's
retry count). -/
inductive AckAction
  | ack
  | republishRetry
  | nackNoRequeue
deriving DecidableEq, Repr

/-- The callback's delivery disposition: success is acked; a raise is
republished with an incremented counter, or nacked without requeue once
`rc ≥ 10`. -/
def callback_on_result (res : ProcResult) (rc : Int) : AckAction :=
  match res with
  | .ok => .ack
  | .raised => if rc ≥ 10 then .nackNoRequeue else .republishRetry

/-- Key of a Report row for the one-row-per-key invariant. -/
def reportKey (r : Report) : PyStr × PyStr := (r.repo_id, r.branch)

/-- At most one Report row per `(repo_id, branch)`. -/
def reportKeysUnique (db : DB) : Prop := (db.reports.map reportKey).Nodup

/-- Well-formedness of the file table: distinct ids, ids below the next
flush id, and at most one row per `(repo_id, branch, file_path)`. -/
def filesWF (db : DB) : Prop :=
  (db.files.map CovFile.id).Nodup ∧
  (∀ f ∈ db.files, f.id < db.nextFileId) ∧
  (db.files.map (fun f => (f.repo_id, f.branch, f.file_path))).Nodup

/-- Index of the first occurrence of an event in a trace (length if
absent). -/
def evIndex (e : Ev) : List Ev → Nat
  | [] => 0
  | x :: xs => if x == e then 0 else evIndex e xs + 1

/-- Index of the first occurrence of a worktree event in a trace. -/
def wtIndex (e : WtEv) : List WtEv → Nat
  | [] => 0
  | x :: xs => if x == e then 0 else wtIndex e xs + 1

/-! ## Concrete fixtures used to evaluate the model -/

/-- A Config row admitting repo 42. -/
def cfg42 : Config :=
  ⟨"42".data, "tuna".data, "https://h/o/tuna.git".data, "master".data, [], []⟩

/-- Store holding only `cfg42`. -/
def db42 : DB := ⟨[cfg42], [], [], [], 0⟩

/-- A goc report message for repo 42 with two blocks of one file. -/
def msgGoc : Msg :=
  ⟨"https://h/o/tuna.git".data, "42".data, "main".data, "abc".data,
    "gitlab".data, "p1".data, "j1".data, "goc".data,
    "m/f.go:1.1,2.2 3 1\nm/f.go:3.1,4.2 2 0".data, 111⟩

/-- Re-ingestion of the same `(repo_id, branch)` with shrunk coverage. -/
def msgGocSmall : Msg :=
  { msgGoc with commit := "def".data, raw := "m/f.go:1.1,2.2 3 1".data }

/-- The same message with the `pca` compatibility format alias. -/
def msgPca : Msg :=
  { msgGoc with format := "pca".data, raw := "f.py:1.0,2.0 3 1".data }

/-- Materialization environment where the target clone fails. -/
def matEnvNone : MatEnv := ⟨some false, none, none, false, none⟩

/-- Occurrences of a worktree event in a trace. -/
def countWt (e : WtEv) : List WtEv → Nat
  | [] => 0
  | x :: xs => (if x = e then 1 else 0) + countWt e xs

/-- Worktree env: worktree present but HEAD at a different commit,
lock immediately free, creation succeeds. -/
def wtEnvStale : WtEnv := ⟨true, true, some "x".data, 0, false, true⟩

/-- Worktree env: worktree present with matching HEAD. -/
def wtEnvFresh : WtEnv := ⟨true, true, some "c".data, 0, false, true⟩

/-- Worktree env: worktree absent, lock always busy. -/
def wtEnvBusy : WtEnv := ⟨false, false, none, 30, false, true⟩

/-- A stored Report row for repo 42. -/
def reportBlank : Report :=
  ⟨"42".data, "tuna".data, "main".data, "master".data, "abc".data, [],
    [], [], [], "goc".data, [], "completed".data, [], 0, 0⟩

/-- Diff request env: report row absent. -/
def diffEnvNoReport : DiffEnv := ⟨none, some cfg42, none, [], []⟩

/-- Diff request env: config row absent. -/
def diffEnvNoConfig : DiffEnv := ⟨some reportBlank, none, none, [], []⟩

/-- Diff request env: base-commit resolution fails. -/
def diffEnvBaseFail : DiffEnv := ⟨some reportBlank, some cfg42, none, [], []⟩

/-- Diff request env: base commit resolves, empty diff. -/
def diffEnvOk : DiffEnv := ⟨some reportBlank, some cfg42, some "b1".data, [], []⟩

/-- Store state after ingesting `msgGoc` into `db42`. -/
def db42after : DB := (process_coverage_report db42 msgGoc 5 6 7 matEnvNone).db

/-- The report row sitting in `db42after`. -/
def report42 : Report :=
  ⟨"42".data, "tuna".data, "main".data, "master".data, "abc".data, [],
    "gitlab".data, "p1".data, "j1".data, "goc".data, msgGoc.raw,
    "completed".data, [], 5, 7⟩

end Orbit

namespace Orbit

/-! # Theorems -/

/-- C1 (amended): a message whose processing always raises is processed
exactly 11 times, not 10: the deliveries carry retry counts 0..10, the
first 10 failures republish the original body with `x-retry-count`
values 1..10, and the delivery carrying `x-retry-count = 10 ≥ 10` is
nacked without requeue after its (11th) processing attempt, with no
further republish. The trace is fuel-stable, and any delivery carrying
`x-retry-count ≥ 10` is dropped immediately after its attempt. -/
theorem retry_exhaustion_eleven_attempts :
    attemptCounts (failEvents 12 none) = [0, 1, 2, 3, 4, 5, 6, 7, 8, 9, 10] ∧
    republishValues (failEvents 12 none) = [1, 2, 3, 4, 5, 6, 7, 8, 9, 10] ∧
    countAttempts (failEvents 12 none) = 11 ∧
    failEvents 12 none = failEvents 1000 none ∧
    (failEvents 12 none).getLast? = some .nackNoRequeue ∧
    ∀ (n : Int) (fuel : Nat), 10 ≤ n →
      failEvents (fuel + 1) (some (some (.int n))) = [.attempt n, .nackNoRequeue] := by
  refine ⟨by decide, by decide, by decide, by decide, by decide, ?_⟩
  intro n fuel h
  simp only [failEvents, get_retry_count]
  rw [if_pos (show n ≥ 10 from h)]

/-- Witness for `retry_exhaustion_eleven_attempts`. -/
theorem retry_exhaustion_eleven_attempts_witness :
    failEvents 3 (some (some (HVal.int 15))) = [.attempt 15, .nackNoRequeue] :=
  retry_exhaustion_eleven_attempts.2.2.2.2.2 15 2 (by decide)

/-- C1 counterexample: the claimed count of exactly 10 processing
attempts is wrong — the full failing run (fuel-stable by
`failEvents 12 none = failEvents 1000 none`) contains 11 attempts. -/
theorem retry_exhaustion_count_is_not_ten :
    ¬ countAttempts (failEvents 12 none) = 10 := by decide

/-- C7: a message whose `repo_id` has no Config row leaves the store
untouched (no Report/File/Range row created or modified),
`process_coverage_report` returns normally after only the admission
check, and the consumer acks the delivery (no retry, at any retry
count). -/
theorem admission_miss_silent_drop :
    ∀ (db : DB) (msg : Msg) (now updateNow rangesTs : Int) (env : MatEnv) (rc : Int),
      lookupConfig db msg.repo_id = none →
      process_coverage_report db msg now updateNow rangesTs env = ⟨db, .ok, [.configCheck]⟩ ∧
      callback_on_result (process_coverage_report db msg now updateNow rangesTs env).result rc
        = .ack := by
  intro db msg now updateNow rangesTs env rc h
  have h1 : process_coverage_report db msg now updateNow rangesTs env
      = ⟨db, .ok, [.configCheck]⟩ := by
    unfold process_coverage_report
    rw [h]
  exact ⟨h1, by rw [h1]; rfl⟩

/-- Witness for `admission_miss_silent_drop`: repo 7 has no Config row
in `db42`. -/
theorem admission_miss_silent_drop_witness :
    process_coverage_report db42 { msgGoc with repo_id := "7".data } 5 6 7 matEnvNone
        = ⟨db42, .ok, [.configCheck]⟩ ∧
      callback_on_result
        (process_coverage_report db42 { msgGoc with repo_id := "7".data } 5 6 7 matEnvNone).result 0
        = .ack :=
  admission_miss_silent_drop db42 { msgGoc with repo_id := "7".data } 5 6 7 matEnvNone 0
    (by decide)

/-- C10: the string `pca` is accepted as a backward-compatibility alias
of `pyca`: both dispatch to the same parser for every raw trace, the
format is not rejected as unsupported, and a concrete `pca` ingestion
completes normally (status `completed`, format stored verbatim). -/
theorem pca_format_alias :
    (∀ raw : PyStr,
      parse_by_format "pca".data raw = parse_by_format "pyca".data raw ∧
      (parse_by_format "pca".data raw).isSome = true) ∧
    (process_coverage_report db42 msgPca 5 6 7 matEnvNone).result = .ok ∧
    ((process_coverage_report db42 msgPca 5 6 7 matEnvNone).db.reports.map Report.status)
      = ["completed".data] ∧
    ((process_coverage_report db42 msgPca 5 6 7 matEnvNone).db.reports.map Report.coverage_format)
      = ["pca".data] := by
  refine ⟨?_, by decide, by decide, by decide⟩
  intro raw
  have h1 : parse_by_format "pca".data raw = some (parse_pyca_coverage raw) := by
    unfold parse_by_format
    rw [if_neg (by decide), if_pos (by decide)]
  have h2 : parse_by_format "pyca".data raw = some (parse_pyca_coverage raw) := by
    unfold parse_by_format
    rw [if_neg (by decide), if_pos (by decide)]
  rw [h1, h2]
  exact ⟨rfl, rfl⟩

/-- C2 (amended): on every admitted, parseable message the repo
materialization of the target commit is triggered BEFORE the DB
transaction commits (and before status is set to `completed`), not
after; the commit and completed-status steps follow it. Materialization
failure never fails the message: the result is `ok` for every
materialization environment, including the exception outcome. -/
theorem materialization_precedes_commit :
    ∀ (db : DB) (msg : Msg) (now updateNow rangesTs : Int) (env : MatEnv) (cfg : Config)
      (entries : List (PyStr × List RangeItem)),
      lookupConfig db msg.repo_id = some cfg →
      parse_by_format msg.format msg.raw = some entries →
      (process_coverage_report db msg now updateNow rangesTs env).result = .ok ∧
      ∃ l1 l2,
        (process_coverage_report db msg now updateNow rangesTs env).trace
            = l1 ++ Ev.materializeTarget :: l2 ∧
          Ev.commitTx ∉ l1 ∧ Ev.setCompleted ∉ l1 ∧
          Ev.commitTx ∈ l2 ∧ Ev.setCompleted ∈ l2 := by
  intro db msg now updateNow rangesTs env cfg entries hcfg hparse
  have hout : ∃ t1 t2 t3 dbout,
      process_coverage_report db msg now updateNow rangesTs env =
        ⟨dbout, .ok,
          [.configCheck, .upsertReport] ++ entries.map (fun e => Ev.fileUpsert e.1) ++
            [.materializeTarget] ++ t1 ++ t2 ++ t3 ++ [.setCompleted, .commitTx]⟩ := by
    unfold process_coverage_report
    rw [hcfg, hparse]
    exact ⟨_, _, _, _, rfl⟩
  obtain ⟨t1, t2, t3, dbout, heq⟩ := hout
  rw [heq]
  refine ⟨rfl,
    [.configCheck, .upsertReport] ++ entries.map (fun e => Ev.fileUpsert e.1),
    t1 ++ t2 ++ t3 ++ [.setCompleted, .commitTx], ?_, ?_, ?_, ?_, ?_⟩
  · simp [List.append_assoc]
  · simp
  · simp
  · simp
  · simp

/-- Witness for `materialization_precedes_commit`. -/
theorem materialization_precedes_commit_witness :
    (process_coverage_report db42 msgGoc 5 6 7 matEnvNone).result = .ok ∧
    ∃ l1 l2,
      (process_coverage_report db42 msgGoc 5 6 7 matEnvNone).trace
          = l1 ++ Ev.materializeTarget :: l2 ∧
        Ev.commitTx ∉ l1 ∧ Ev.setCompleted ∉ l1 ∧
        Ev.commitTx ∈ l2 ∧ Ev.setCompleted ∈ l2 :=
  materialization_precedes_commit db42 msgGoc 5 6 7 matEnvNone cfg42
    (parse_goc_coverage msgGoc.raw) (by decide) (by decide)

/-- C2 counterexample: in a concrete successful ingestion the
materialization step occurs strictly before both the completed-status
write and the transaction commit, refuting «triggered only after the DB
transaction has committed». -/
theorem materialization_not_after_commit :
    evIndex .materializeTarget (process_coverage_report db42 msgGoc 5 6 7 matEnvNone).trace
        < evIndex .commitTx (process_coverage_report db42 msgGoc 5 6 7 matEnvNone).trace ∧
      evIndex .materializeTarget (process_coverage_report db42 msgGoc 5 6 7 matEnvNone).trace
        < evIndex .setCompleted (process_coverage_report db42 msgGoc 5 6 7 matEnvNone).trace := by
  decide

/-- A list with no colon yields `rfind = -1`. -/
theorem rfindSplit_eq_none : ∀ cs : PyStr, rfindSplit cs = none → ':' ∉ cs := by
  intro cs
  induction cs with
  | nil => intro _ h; simp at h
  | cons c cs ih =>
    intro h hmem
    unfold rfindSplit at h
    cases hr : rfindSplit cs with
    | some p =>
      rw [hr] at h
      obtain ⟨p1, p2⟩ := p
      simp at h
    | none =>
      rw [hr] at h
      by_cases hc : c = ':'
      · rw [if_pos hc] at h; simp at h
      · rw [if_neg hc] at h
        rcases List.mem_cons.mp hmem with he | hm
        · exact hc he.symm
        · exact ih hr hm

/-- `rfindSplit` splits exactly at the last colon: the suffix holds no
further colon and the prefix (the file path) is returned verbatim. -/
theorem rfindSplit_eq_some :
    ∀ (cs pre post : PyStr), rfindSplit cs = some (pre, post) →
      cs = pre ++ ':' :: post ∧ ':' ∉ post := by
  intro cs
  induction cs with
  | nil => intro pre post h; simp [rfindSplit] at h
  | cons c cs ih =>
    intro pre post h
    unfold rfindSplit at h
    cases hr : rfindSplit cs with
    | some p =>
      obtain ⟨p1, p2⟩ := p
      rw [hr] at h
      simp only [Option.some.injEq, Prod.mk.injEq] at h
      obtain ⟨h1, h2⟩ := h
      obtain ⟨hcs, hpost⟩ := ih p1 p2 hr
      subst h1; subst h2
      exact ⟨by rw [hcs]; rfl, hpost⟩
    | none =>
      rw [hr] at h
      by_cases hc : c = ':'
      · rw [if_pos hc] at h
        simp only [Option.some.injEq, Prod.mk.injEq] at h
        obtain ⟨h1, h2⟩ := h
        subst h1; subst h2
        exact ⟨by simp [hc], rfindSplit_eq_none cs hr⟩
      · rw [if_neg hc] at h; simp at h

/-- Successful `parseGocFields` splits the token at its last colon. -/
theorem parseGocFields_token_shape :
    ∀ (tok stmts cnt fp : PyStr) (item : RangeItem),
      parseGocFields tok stmts cnt = some (fp, item) →
      ∃ rest, tok = fp ++ ':' :: rest ∧ ':' ∉ rest := by
  intro tok stmts cnt fp item h
  unfold parseGocFields at h
  cases hr : rfindSplit tok with
  | none => rw [hr] at h; simp at h
  | some p =>
    obtain ⟨fp', rangeStr⟩ := p
    rw [hr] at h
    simp only [Option.map_eq_some'] at h
    obtain ⟨it, _, hpair⟩ := h
    obtain ⟨hfp, _⟩ := Prod.mk.injEq .. ▸ hpair
    obtain ⟨hcs, hpost⟩ := rfindSplit_eq_some tok fp' rangeStr hr
    exact ⟨rangeStr, by rw [← hfp]; exact hcs, hpost⟩

/-- C4: the goc/pyca/jacoco trace parser is a total function (it cannot
raise); it skips whitespace-only lines and lines whose stripped form
begins with `mode:`; a successfully parsed line's file path is exactly
the first whitespace token up to its LAST colon (so paths containing
colons are preserved); any line that parses to nothing is skipped
without affecting the rest of the file; and a concrete trace with a
colon-bearing path and assorted malformed lines decodes to the expected
`file_path -> blocks` mapping carrying all six numeric fields. -/
theorem goc_parser_line_grammar :
    (∀ line : PyStr, pyStrip line = [] → parseGocLine line = none) ∧
    (∀ line : PyStr, beginsWith "mode:".data (pyStrip line) = true → parseGocLine line = none) ∧
    (∀ (line fp : PyStr) (item : RangeItem),
      parseGocLine line = some (fp, item) →
      ∃ rest others, pyWords (pyStrip line) = (fp ++ ':' :: rest) :: others ∧ ':' ∉ rest) ∧
    (∀ (ls1 ls2 : List PyStr) (l : PyStr), parseGocLine l = none →
      groupPairs ((ls1 ++ l :: ls2).filterMap parseGocLine)
        = groupPairs ((ls1 ++ ls2).filterMap parseGocLine)) ∧
    (∀ raw : PyStr,
      parse_goc_coverage raw = groupPairs ((pySplitOn '\n' raw).filterMap parseGocLine)) ∧
    parse_goc_coverage
        "mode: set\na:b/c.go:1.2,3.4 5 6\nx.go:1.2,3.4 5\nnocolon 1 2\n\n   \nd.go:1.2 3 4".data
      = [("a:b/c.go".data, [⟨1, 2, 3, 4, 5, 6⟩])] := by
  refine ⟨?_, ?_, ?_, ?_, fun _ => rfl, by decide⟩
  · intro line h
    unfold parseGocLine
    rw [if_pos h]
  · intro line h
    unfold parseGocLine
    by_cases h0 : pyStrip line = []
    · rw [if_pos h0]
    · rw [if_neg h0, if_pos h]
  · intro line fp item h
    unfold parseGocLine at h
    by_cases h0 : pyStrip line = []
    · rw [if_pos h0] at h; simp at h
    by_cases h1 : beginsWith "mode:".data (pyStrip line) = true
    · rw [if_neg h0, if_pos h1] at h; simp at h
    rw [if_neg h0, if_neg h1] at h
    cases hw : pyWords (pyStrip line) with
    | nil => rw [hw] at h; simp at h
    | cons tok rest1 =>
      cases rest1 with
      | nil => rw [hw] at h; simp at h
      | cons stmts rest2 =>
        cases rest2 with
        | nil => rw [hw] at h; simp at h
        | cons cnt others =>
          rw [hw] at h
          simp only [] at h
          obtain ⟨rest, htok, hrest⟩ := parseGocFields_token_shape tok stmts cnt fp item h
          exact ⟨rest, stmts :: cnt :: others, by rw [htok], hrest⟩
  · intro ls1 ls2 l h
    rw [List.filterMap_append, List.filterMap_append, List.filterMap_cons_none h]

/-- Witness for `goc_parser_line_grammar`. -/
theorem goc_parser_line_grammar_witness :
    parseGocLine "   ".data = none ∧
    parseGocLine " mode: set 7".data = none ∧
    (∃ rest others,
      pyWords (pyStrip "a:b.go:1.2,3.4 5 6".data)
        = ("a:b.go".data ++ ':' :: rest) :: others ∧ ':' ∉ rest) ∧
    groupPairs ((["ok.go:1.2,3.4 5 6".data] ++ "bad line".data :: []).filterMap parseGocLine)
      = groupPairs ((["ok.go:1.2,3.4 5 6".data] ++ ([] : List PyStr)).filterMap parseGocLine) := by
  refine ⟨goc_parser_line_grammar.1 "   ".data (by decide),
    goc_parser_line_grammar.2.1 " mode: set 7".data (by decide),
    goc_parser_line_grammar.2.2.1 "a:b.go:1.2,3.4 5 6".data "a:b.go".data ⟨1, 2, 3, 4, 5, 6⟩
      (by decide),
    goc_parser_line_grammar.2.2.2.1 ["ok.go:1.2,3.4 5 6".data] [] "bad line".data (by decide)⟩

/-- The lock loop emits only flock attempts, sleeps and the acquisition. -/
theorem lockLoop_events :
    ∀ (fuel busy rc : Nat) (e : WtEv), e ∈ (lockLoop fuel busy rc).1 →
      e = .lockAttempt ∨ e = .sleep1 ∨ e = .acquire := by
  intro fuel
  induction fuel with
  | zero => intro busy rc e he; simp [lockLoop] at he
  | succ n ih =>
    intro busy rc e he
    unfold lockLoop at he
    by_cases h1 : rc ≥ busy
    · rw [if_pos h1] at he
      simp only [List.mem_cons, List.mem_singleton, List.not_mem_nil] at he
      rcases he with h | h | h
      · exact Or.inl h
      · exact Or.inr (Or.inr h)
      · simp at h
    · rw [if_neg h1] at he
      by_cases h2 : rc + 1 < 30
      · rw [if_pos h2] at he
        simp only [List.mem_cons] at he
        rcases he with h | h | h
        · exact Or.inl h
        · exact Or.inr (Or.inl h)
        · exact ih busy (rc + 1) e h
      · rw [if_neg h2] at he
        simp only [List.mem_singleton] at he
        exact Or.inl he

/-- When the lock loop succeeds, its last event is the acquisition. -/
theorem lockLoop_ends_acquire :
    ∀ (fuel busy rc : Nat), (lockLoop fuel busy rc).2 = true →
      ∃ pre, (lockLoop fuel busy rc).1 = pre ++ [.acquire] := by
  intro fuel
  induction fuel with
  | zero => intro busy rc h; simp [lockLoop] at h
  | succ n ih =>
    intro busy rc h
    unfold lockLoop at h ⊢
    by_cases h1 : rc ≥ busy
    · rw [if_pos h1] at h ⊢
      exact ⟨[.lockAttempt], rfl⟩
    · rw [if_neg h1] at h ⊢
      by_cases h2 : rc + 1 < 30
      · rw [if_pos h2] at h ⊢
        simp only [] at h ⊢
        obtain ⟨pre, hpre⟩ := ih busy (rc + 1) h
        exact ⟨.lockAttempt :: .sleep1 :: pre, by rw [hpre]; simp⟩
      · rw [if_neg h2] at h
        simp at h

/-- A lock busy through all 30 non-blocking attempts: the loop makes
exactly 30 flock attempts, sleeps 29 times, and fails (raises). -/
theorem lockLoop_exhausted :
    ∀ (fuel busy rc : Nat), 30 ≤ busy → rc + fuel = 30 →
      (lockLoop fuel busy rc).2 = false ∧
      countWt .lockAttempt (lockLoop fuel busy rc).1 = fuel ∧
      countWt .sleep1 (lockLoop fuel busy rc).1 = fuel - 1 := by
  intro fuel
  induction fuel with
  | zero => intro busy rc _ _; exact ⟨rfl, rfl, rfl⟩
  | succ n ih =>
    intro busy rc hb hsum
    unfold lockLoop
    rw [if_neg (by omega)]
    by_cases h2 : rc + 1 < 30
    · rw [if_pos h2]
      obtain ⟨hr, ha, hs⟩ := ih busy (rc + 1) hb (by omega)
      refine ⟨hr, ?_, ?_⟩
      · simp [countWt, ha]
        omega
      · simp [countWt, hs]
        omega
    · rw [if_neg h2]
      have hn : n = 0 := by omega
      subst hn
      exact ⟨rfl, rfl, rfl⟩

/-- A lock that frees up within the 30 attempts: the loop succeeds at
attempt `busy + 1`, with the attempts one sleep apart. -/
theorem lockLoop_succeeds :
    ∀ (fuel busy rc : Nat), rc + fuel = 30 → rc ≤ busy → busy < 30 →
      (lockLoop fuel busy rc).2 = true ∧
      countWt .lockAttempt (lockLoop fuel busy rc).1 = busy - rc + 1 ∧
      countWt .sleep1 (lockLoop fuel busy rc).1 = busy - rc := by
  intro fuel
  induction fuel with
  | zero => intro busy rc hsum hle hlt; omega
  | succ n ih =>
    intro busy rc hsum hle hlt
    unfold lockLoop
    by_cases h1 : rc ≥ busy
    · rw [if_pos h1]
      have : rc = busy := by omega
      subst this
      refine ⟨rfl, ?_, ?_⟩ <;> simp [countWt]
    · rw [if_neg h1]
      rw [if_pos (by omega)]
      obtain ⟨hr, ha, hs⟩ := ih busy (rc + 1) (by omega) (by omega) hlt
      refine ⟨hr, ?_, ?_⟩
      · simp [countWt, ha]
        omega
      · simp [countWt, hs]
        omega

/-- `ensureWorktreeLocked` appends to `pre` a suffix free of removals in
which any creation happens after the acquisition. -/
theorem ensureWorktreeLocked_split :
    ∀ (env : WtEnv) (pre : List WtEv),
      ∃ rest, (ensureWorktreeLocked env pre).2 = pre ++ rest ∧ WtEv.remove ∉ rest ∧
        (WtEv.create ∈ rest → ∃ m1 m2, rest = m1 ++ WtEv.acquire :: m2 ∧ WtEv.create ∈ m2) := by
  intro env pre
  have hev := lockLoop_events 30 env.lockBusy 0
  unfold ensureWorktreeLocked
  by_cases hl : (commitLockEnter env.lockBusy).2 = true
  · rw [if_pos hl]
    obtain ⟨lpre, hlpre⟩ := lockLoop_ends_acquire 30 env.lockBusy 0 hl
    by_cases hre : env.recheckExists = true
    · rw [if_pos hre]
      refine ⟨(commitLockEnter env.lockBusy).1 ++ [.recheck, .release], by simp, ?_, ?_⟩
      · intro hmem
        rcases List.mem_append.mp hmem with hm | hm
        · rcases hev _ hm with h | h | h <;> simp at h
        · simp at hm
      · intro hc
        rcases List.mem_append.mp hc with hm | hm
        · rcases hev _ hm with h | h | h <;> simp at h
        · simp at hm
    · rw [if_neg hre]
      refine ⟨(commitLockEnter env.lockBusy).1 ++ [.recheck, .create, .release], by simp, ?_, ?_⟩
      · intro hmem
        rcases List.mem_append.mp hmem with hm | hm
        · rcases hev _ hm with h | h | h <;> simp at h
        · simp at hm
      · intro _
        refine ⟨lpre, [.recheck, .create, .release], ?_, by simp⟩
        have hlpre' : (commitLockEnter env.lockBusy).1 = lpre ++ [WtEv.acquire] := hlpre
        rw [hlpre']
        simp
  · rw [if_neg hl]
    refine ⟨(commitLockEnter env.lockBusy).1, rfl, ?_, ?_⟩
    · intro hmem
      rcases hev _ hmem with h | h | h <;> simp at h
    · intro hc
      rcases hev _ hc with h | h | h <;> simp at h

/-- C9 (amended): `ensure_worktree(U, C)` returns successfully without
removing, locking or recreating anything when the worktree (with its
`.git`) exists and `HEAD` resolves to `C`. Otherwise the stale worktree
is removed BEFORE the per-commit lock is acquired — not while holding
it — and only the re-check and worktree creation happen under the lock.
The non-blocking lock acquisition is retried up to 30 attempts, one
1-second sleep apart: if the lock stays busy the 30 attempts all fail
and the operation fails; a lock free at attempt `busy + 1 ≤ 30`
is acquired after exactly that many attempts. -/
theorem ensure_worktree_lock_protocol :
    (∀ (commit : PyStr) (env : WtEnv),
      env.worktreeExists = true → env.dotGitExists = true → env.headResult = some commit →
      ensure_worktree commit env = (true, [.checkHead])) ∧
    (∀ (commit : PyStr) (env : WtEnv),
      ∃ l1 l2, (ensure_worktree commit env).2 = l1 ++ l2 ∧
        WtEv.acquire ∉ l1 ∧ WtEv.remove ∉ l2) ∧
    (∀ (commit : PyStr) (env : WtEnv), WtEv.create ∈ (ensure_worktree commit env).2 →
      ∃ l1 l2, (ensure_worktree commit env).2 = l1 ++ WtEv.acquire :: l2 ∧ WtEv.create ∈ l2) ∧
    (∀ busy : Nat, 30 ≤ busy →
      (commitLockEnter busy).2 = false ∧
      countWt .lockAttempt (commitLockEnter busy).1 = 30 ∧
      countWt .sleep1 (commitLockEnter busy).1 = 29) ∧
    (∀ busy : Nat, busy < 30 →
      (commitLockEnter busy).2 = true ∧
      countWt .lockAttempt (commitLockEnter busy).1 = busy + 1 ∧
      countWt .sleep1 (commitLockEnter busy).1 = busy) ∧
    (∀ (commit : PyStr) (env : WtEnv), 30 ≤ env.lockBusy → env.worktreeExists = false →
      (ensure_worktree commit env).1 = false) := by
  have hsplit : ∀ (commit : PyStr) (env : WtEnv),
      ensure_worktree commit env = (true, [.checkHead]) ∨
      ∃ pre, (WtEv.acquire ∉ pre ∧ WtEv.create ∉ pre) ∧
        ensure_worktree commit env = ensureWorktreeLocked env pre := by
    intro commit env
    by_cases hwd : (env.worktreeExists && env.dotGitExists) = true
    · cases hh : env.headResult with
      | some h =>
        have hred : ensure_worktree commit env
            = if h = commit then (true, [WtEv.checkHead])
              else ensureWorktreeLocked env [WtEv.checkHead, WtEv.remove] := by
          unfold ensure_worktree
          rw [if_pos hwd, hh]
        by_cases hc : h = commit
        · rw [hred, if_pos hc]; exact Or.inl rfl
        · rw [hred, if_neg hc]
          exact Or.inr ⟨[.checkHead, .remove], ⟨by simp, by simp⟩, rfl⟩
      | none =>
        have hred : ensure_worktree commit env
            = ensureWorktreeLocked env [WtEv.checkHead, WtEv.remove] := by
          unfold ensure_worktree
          rw [if_pos hwd, hh]
        rw [hred]
        exact Or.inr ⟨[.checkHead, .remove], ⟨by simp, by simp⟩, rfl⟩
    · have hred : ensure_worktree commit env = ensureWorktreeLocked env [] := by
        unfold ensure_worktree
        rw [if_neg hwd]
      rw [hred]
      exact Or.inr ⟨[], ⟨by simp, by simp⟩, rfl⟩
  refine ⟨?_, ?_, ?_, ?_, ?_, ?_⟩
  · intro commit env hw hd hh
    have hred : ensure_worktree commit env
        = if commit = commit then (true, [WtEv.checkHead])
          else ensureWorktreeLocked env [WtEv.checkHead, WtEv.remove] := by
      unfold ensure_worktree
      rw [hw, hd, if_pos (show (true && true) = true from rfl), hh]
    rw [hred, if_pos rfl]
  · intro commit env
    rcases hsplit commit env with hfast | ⟨pre, ⟨hpa, _⟩, heq⟩
    · exact ⟨[.checkHead], [], by rw [hfast]; simp, by simp, by simp⟩
    · obtain ⟨rest, hrest, hnr, _⟩ := ensureWorktreeLocked_split env pre
      exact ⟨pre, rest, by rw [heq, hrest], hpa, hnr⟩
  · intro commit env hcr
    rcases hsplit commit env with hfast | ⟨pre, ⟨_, hpc⟩, heq⟩
    · rw [hfast] at hcr; simp at hcr
    · obtain ⟨rest, hrest, _, hcreate⟩ := ensureWorktreeLocked_split env pre
      rw [heq, hrest] at hcr ⊢
      rcases List.mem_append.mp hcr with hm | hm
      · exact absurd hm hpc
      · obtain ⟨m1, m2, hm12, hcm2⟩ := hcreate hm
        exact ⟨pre ++ m1, m2, by rw [hm12]; simp, hcm2⟩
  · intro busy hb
    exact lockLoop_exhausted 30 busy 0 hb rfl
  · intro busy hb
    have h := lockLoop_succeeds 30 busy 0 rfl (Nat.zero_le busy) hb
    simpa using h
  · intro commit env hb hw
    have hfail : (commitLockEnter env.lockBusy).2 = false :=
      (lockLoop_exhausted 30 env.lockBusy 0 hb rfl).1
    have hred : ensure_worktree commit env = ensureWorktreeLocked env [] := by
      unfold ensure_worktree
      rw [hw, if_neg (by simp)]
    rw [hred]
    unfold ensureWorktreeLocked
    rw [if_neg (by rw [hfail]; simp)]

/-- Witness for `ensure_worktree_lock_protocol`. -/
theorem ensure_worktree_lock_protocol_witness :
    ensure_worktree "c".data wtEnvFresh = (true, [.checkHead]) ∧
    ((commitLockEnter 30).2 = false ∧
      countWt .lockAttempt (commitLockEnter 30).1 = 30 ∧
      countWt .sleep1 (commitLockEnter 30).1 = 29) ∧
    ((commitLockEnter 3).2 = true ∧
      countWt .lockAttempt (commitLockEnter 3).1 = 4 ∧
      countWt .sleep1 (commitLockEnter 3).1 = 3) ∧
    (ensure_worktree "c".data wtEnvBusy).1 = false :=
  ⟨ensure_worktree_lock_protocol.1 "c".data wtEnvFresh (by decide) (by decide) (by decide),
    ensure_worktree_lock_protocol.2.2.2.1 30 (by decide),
    ensure_worktree_lock_protocol.2.2.2.2.1 3 (by decide),
    ensure_worktree_lock_protocol.2.2.2.2.2 "c".data wtEnvBusy (by decide) (by decide)⟩

/-- C9 counterexample: with a stale worktree the removal happens at
trace position 1, strictly before the lock acquisition at position 3 —
the worktree is NOT removed while holding the per-commit lock. -/
theorem ensure_worktree_remove_before_lock :
    (ensure_worktree "c".data wtEnvStale).2
        = [.checkHead, .remove, .lockAttempt, .acquire, .recheck, .create, .release] ∧
      wtIndex .remove (ensure_worktree "c".data wtEnvStale).2
        < wtIndex .acquire (ensure_worktree "c".data wtEnvStale).2 := by
  decide

/-- With no stored coverage rows, every file of the diff is skipped. -/
theorem diffFoldStep_no_rows :
    ∀ (env : DiffEnv) (l : List (PyStr × List DiffHunk)) (acc : List DiffCoverageFile),
      env.coverageRows = [] → l.foldl (diffFoldStep env) acc = acc := by
  intro env l
  induction l with
  | nil => intro acc _; rfl
  | cons e es ih =>
    intro acc hrows
    show es.foldl (diffFoldStep env) (diffFoldStep env acc e) = acc
    have hb : coverageBlocksFor env e.1 = [] := by
      unfold coverageBlocksFor
      rw [hrows]
      rfl
    have hstep : diffFoldStep env acc e = acc := by
      unfold diffFoldStep
      rw [hb]
      rfl
    rw [hstep]
    exact ih acc hrows

/-- C3 (amended): the diff endpoint returns an error status in exactly
three situations — the Report row is missing (404), the Config row is
missing (404), or `calculate_diff_coverage` yields no result (500),
which happens precisely when base-commit resolution fails (merge-base
and base-tip both): failure to resolve the base commit DOES produce an
error response. The endpoint never materializes the target worktree.
Once report, config and base commit are available the status is 200,
and data-producing steps that come up empty — an empty diff, or no
stored coverage rows for any diffed file — yield the empty file list
with the zero summary. -/
theorem diff_endpoint_failure_semantics :
    (∀ (env : DiffEnv) (bbp : Option PyStr), env.report = none →
      get_diff_coverage env bbp = (404, none)) ∧
    (∀ (env : DiffEnv) (bbp : Option PyStr) (r : Report), env.report = some r →
      env.config = none → get_diff_coverage env bbp = (404, none)) ∧
    (∀ (env : DiffEnv) (bbp : Option PyStr) (r : Report) (c : Config),
      env.report = some r → env.config = some c → env.baseCommit = none →
      get_diff_coverage env bbp = (500, none)) ∧
    (∀ (env : DiffEnv) (bbp : Option PyStr) (r : Report) (c : Config) (bc : PyStr),
      env.report = some r → env.config = some c → env.baseCommit = some bc →
      ∃ res, get_diff_coverage env bbp = (200, some res) ∧ res.base_commit = bc ∧
        (env.hunks = [] → res.files = [] ∧ res.summary = zeroSummary) ∧
        (env.coverageRows = [] → res.files = [] ∧ res.summary = zeroSummary)) := by
  refine ⟨?_, ?_, ?_, ?_⟩
  · intro env bbp h
    unfold get_diff_coverage
    rw [h]
  · intro env bbp r hr hc
    have hred : get_diff_coverage env bbp
        = (404, none) := by
      unfold get_diff_coverage
      rw [hr, hc]
    exact hred
  · intro env bbp r c hr hc hbc
    have hcalc : ∀ bb, calculate_diff_coverage env bb = none := by
      intro bb
      unfold calculate_diff_coverage
      rw [hbc]
    have hred : get_diff_coverage env bbp
        = (match calculate_diff_coverage env
            (match bbp with
              | some b => if b = [] then c.base_branch else b
              | none => c.base_branch) with
          | none => ((500 : Nat), (none : Option DiffResult))
          | some res => (200, some res)) := by
      unfold get_diff_coverage
      rw [hr, hc]
    rw [hred, hcalc]
  · intro env bbp r c bc hr hc hbc
    have hcalc : ∀ bb, ∃ res, calculate_diff_coverage env bb = some res ∧
        res.base_commit = bc ∧
        (env.hunks = [] → res.files = [] ∧ res.summary = zeroSummary) ∧
        (env.coverageRows = [] → res.files = [] ∧ res.summary = zeroSummary) := by
      intro bb
      have hredc : calculate_diff_coverage env bb
          = if env.hunks.isEmpty = true then some ⟨[], zeroSummary, bc, bb⟩
            else some ⟨(groupPairs (env.hunks.map (fun h => (h.file_path, h)))).foldl
                (diffFoldStep env) [],
              generate_diff_coverage_summary
                ((groupPairs (env.hunks.map (fun h => (h.file_path, h)))).foldl
                  (diffFoldStep env) []),
              bc, bb⟩ := by
        unfold calculate_diff_coverage
        rw [hbc]
      by_cases hh : env.hunks.isEmpty = true
      · rw [hredc, if_pos hh]
        exact ⟨_, rfl, rfl, fun _ => ⟨rfl, rfl⟩, fun _ => ⟨rfl, rfl⟩⟩
      · rw [hredc, if_neg hh]
        refine ⟨_, rfl, rfl, fun he => absurd (by rw [he]; rfl) hh, fun hrows => ?_⟩
        have hfr : (groupPairs (env.hunks.map (fun h => (h.file_path, h)))).foldl
            (diffFoldStep env) [] = [] := diffFoldStep_no_rows env _ [] hrows
        exact ⟨hfr, by rw [hfr]; rfl⟩
    cases bbp with
    | none =>
      have hred : get_diff_coverage env none
          = (match calculate_diff_coverage env c.base_branch with
            | none => ((500 : Nat), (none : Option DiffResult))
            | some res => (200, some res)) := by
        unfold get_diff_coverage
        rw [hr, hc]
      obtain ⟨res, hres, hb, h1, h2⟩ := hcalc c.base_branch
      refine ⟨res, ?_, hb, h1, h2⟩
      rw [hred, hres]
    | some b =>
      have hred : get_diff_coverage env (some b)
          = (match calculate_diff_coverage env (if b = [] then c.base_branch else b) with
            | none => ((500 : Nat), (none : Option DiffResult))
            | some res => (200, some res)) := by
        unfold get_diff_coverage
        rw [hr, hc]
      obtain ⟨res, hres, hb, h1, h2⟩ := hcalc (if b = [] then c.base_branch else b)
      refine ⟨res, ?_, hb, h1, h2⟩
      rw [hred, hres]

/-- Witness for `diff_endpoint_failure_semantics`. -/
theorem diff_endpoint_failure_semantics_witness :
    get_diff_coverage diffEnvNoReport none = (404, none) ∧
    get_diff_coverage diffEnvNoConfig none = (404, none) ∧
    get_diff_coverage diffEnvBaseFail none = (500, none) ∧
    ∃ res, get_diff_coverage diffEnvOk none = (200, some res) ∧ res.base_commit = "b1".data ∧
      (diffEnvOk.hunks = [] → res.files = [] ∧ res.summary = zeroSummary) ∧
      (diffEnvOk.coverageRows = [] → res.files = [] ∧ res.summary = zeroSummary) :=
  ⟨diff_endpoint_failure_semantics.1 diffEnvNoReport none (by decide),
    diff_endpoint_failure_semantics.2.1 diffEnvNoConfig none reportBlank (by decide) (by decide),
    diff_endpoint_failure_semantics.2.2.1 diffEnvBaseFail none reportBlank cfg42
      (by decide) (by decide) (by decide),
    diff_endpoint_failure_semantics.2.2.2 diffEnvOk none reportBlank cfg42 "b1".data
      (by decide) (by decide) (by decide)⟩

/-- C3 counterexample: with the Report and Config present but base-commit
resolution failing, the endpoint returns HTTP 500 — base-commit failure
does produce an error response, contrary to the claim. -/
theorem diff_base_commit_failure_yields_500 :
    get_diff_coverage diffEnvBaseFail none = (500, none) := by
  decide

/-- `updateFirst` preserves length. -/
theorem updateFirst_length (p : α → Bool) (g : α → α) :
    ∀ l : List α, (updateFirst p g l).length = l.length := by
  intro l
  induction l with
  | nil => rfl
  | cons x xs ih =>
    unfold updateFirst
    by_cases h : p x = true
    · rw [if_pos h]
      rfl
    · rw [if_neg h]
      simp [ih]

/-- `updateFirst` is invisible to any projection the update preserves. -/
theorem updateFirst_map (p : α → Bool) (g : α → α) (h : α → β) (hgh : ∀ a, h (g a) = h a) :
    ∀ l : List α, (updateFirst p g l).map h = l.map h := by
  intro l
  induction l with
  | nil => rfl
  | cons x xs ih =>
    unfold updateFirst
    by_cases hp : p x = true
    · rw [if_pos hp]
      simp [hgh]
    · rw [if_neg hp]
      simp [ih]

/-- `find?` after `updateFirst` returns the updated first match. -/
theorem updateFirst_find? (p : α → Bool) (g : α → α) (hp : ∀ a, p (g a) = p a) :
    ∀ l : List α, (updateFirst p g l).find? p = (l.find? p).map g := by
  intro l
  induction l with
  | nil => rfl
  | cons x xs ih =>
    unfold updateFirst
    by_cases hx : p x = true
    · rw [if_pos hx]
      rw [List.find?_cons_of_pos _ (by rw [hp]; exact hx), List.find?_cons_of_pos _ hx]
      rfl
    · rw [if_neg hx]
      rw [List.find?_cons_of_neg _ (by simpa using hx), List.find?_cons_of_neg _ (by simpa using hx)]
      exact ih

/-- Two in-place updates of the first key match compose. -/
theorem updateFirst_updateFirst (p : α → Bool) (g2 g3 : α → α) (hp : ∀ a, p (g2 a) = p a) :
    ∀ l : List α, updateFirst p g3 (updateFirst p g2 l) = updateFirst p (fun a => g3 (g2 a)) l := by
  intro l
  induction l with
  | nil => rfl
  | cons x xs ih =>
    by_cases hx : p x = true
    · show updateFirst p g3 (if p x then g2 x :: xs else x :: updateFirst p g2 xs) = _
      rw [if_pos hx]
      show (if p (g2 x) then g3 (g2 x) :: xs else g2 x :: updateFirst p g3 xs) = _
      rw [if_pos (by rw [hp]; exact hx)]
      show _ = (if p x then g3 (g2 x) :: xs else x :: updateFirst p (fun a => g3 (g2 a)) xs)
      rw [if_pos hx]
    · show updateFirst p g3 (if p x then g2 x :: xs else x :: updateFirst p g2 xs) = _
      rw [if_neg hx]
      show (if p x then g3 x :: updateFirst p g2 xs else x :: updateFirst p g3 (updateFirst p g2 xs)) = _
      rw [if_neg hx]
      show _ = (if p x then (fun a => g3 (g2 a)) x :: xs else x :: updateFirst p (fun a => g3 (g2 a)) xs)
      rw [if_neg hx, ih]

/-- The file loop never touches the reports or configs tables. -/
theorem processOneFile_reports (rid br : PyStr) (ts : Int) (db : DB) (e : PyStr × List RangeItem) :
    (processOneFile rid br ts db e).reports = db.reports ∧
    (processOneFile rid br ts db e).configs = db.configs := by
  unfold processOneFile
  cases h : findLast? (fileKeyIs rid br e.1) db.files <;> exact ⟨rfl, rfl⟩

/-- Folding the file loop never touches the reports table. -/
theorem processFiles_reports (rid br : PyStr) (ts : Int) :
    ∀ (entries : List (PyStr × List RangeItem)) (db : DB),
      (processFiles rid br ts entries db).reports = db.reports := by
  intro entries
  induction entries with
  | nil => intro db; rfl
  | cons e es ih =>
    intro db
    show (processFiles rid br ts es (processOneFile rid br ts db e)).reports = db.reports
    rw [ih, (processOneFile_reports rid br ts db e).1]

/-- `setReport` acts on the reports table alone. -/
theorem setReport_reports (db : DB) (rid br : PyStr) (g : Report → Report) :
    (setReport db rid br g).reports
      = updateFirst (fun r => r.repo_id == rid && r.branch == br) g db.reports := rfl

/-- Reduced form of the report upsert when the key row exists. -/
theorem ingestUpsertReport_update (db0 : DB) (msg : Msg) (now : Int) (rn bb : PyStr) (r : Report)
    (h : lookupReport db0 msg.repo_id msg.branch = some r) :
    ingestUpsertReport db0 msg now rn bb
      = { db0 with
          reports := updateFirst
            (fun x => x.repo_id == msg.repo_id && x.branch == msg.branch)
            (mkUpdatedReport msg rn now) db0.reports } := by
  unfold ingestUpsertReport
  rw [h]

/-- Reduced form of the report upsert when the key row is absent. -/
theorem ingestUpsertReport_insert (db0 : DB) (msg : Msg) (now : Int) (rn bb : PyStr)
    (h : lookupReport db0 msg.repo_id msg.branch = none) :
    ingestUpsertReport db0 msg now rn bb
      = { db0 with reports := db0.reports ++ [mkNewReport msg rn bb now] } := by
  unfold ingestUpsertReport
  rw [h]

/-- The finalize phase is one in-place update of the key row: it marks
the report completed at `rangesTs`, leaves keys, `created_at`,
`base_branch`, commit, CI and coverage fields alone, and can touch
`base_commit` only when `bc0` (the pre-loop base commit) was empty. -/
theorem ingestFinalize_reports (db2 : DB) (msg : Msg) (rangesTs : Int) (env : MatEnv)
    (bc0 : PyStr) :
    ∃ g : Report → Report,
      (ingestFinalize db2 msg rangesTs env bc0).reports
          = updateFirst (fun x => x.repo_id == msg.repo_id && x.branch == msg.branch) g
              db2.reports ∧
      (ingestFinalize db2 msg rangesTs env bc0).configs = db2.configs ∧
      (ingestFinalize db2 msg rangesTs env bc0).files = db2.files ∧
      (ingestFinalize db2 msg rangesTs env bc0).ranges = db2.ranges ∧
      (∀ a : Report, (g a).repo_id = a.repo_id ∧ (g a).branch = a.branch ∧
        (g a).status = "completed".data ∧ (g a).updated_at = rangesTs ∧
        (g a).created_at = a.created_at ∧ (g a).base_branch = a.base_branch ∧
        (g a).commit = a.commit ∧ (g a).coverage_format = a.coverage_format ∧
        (g a).coverage_raw = a.coverage_raw ∧ (g a).ci_provider = a.ci_provider ∧
        (g a).ci_pipeline_id = a.ci_pipeline_id ∧ (g a).ci_job_id = a.ci_job_id ∧
        (g a).repo_name = a.repo_name) ∧
      (bc0 ≠ [] → ∀ a : Report, (g a).base_commit = a.base_commit) := by
  have hred : ingestFinalize db2 msg rangesTs env bc0
      = setReport
          (if (env.cloneTarget == some true) && bc0.isEmpty then
            match env.baseResolved with
            | some bc =>
              if bc ≠ [] then
                setReport db2 msg.repo_id msg.branch (fun r => { r with base_commit := bc })
              else db2
            | none => db2
          else db2)
          msg.repo_id msg.branch
          (fun r => { r with status := "completed".data, updated_at := rangesTs }) := by
    unfold ingestFinalize
    rfl
  by_cases hcl : ((env.cloneTarget == some true) && bc0.isEmpty) = true
  · have hbc0nil : bc0 = [] := by
      cases bc0 with
      | nil => rfl
      | cons a as => simp [List.isEmpty] at hcl
    cases hbr : env.baseResolved with
    | none =>
      have hred2 : ingestFinalize db2 msg rangesTs env bc0
          = setReport db2 msg.repo_id msg.branch
              (fun r => { r with status := "completed".data, updated_at := rangesTs }) := by
        rw [hred, if_pos hcl, hbr]
      rw [hred2]
      exact ⟨fun r => { r with status := "completed".data, updated_at := rangesTs },
        rfl, rfl, rfl, rfl,
        fun a => ⟨rfl, rfl, rfl, rfl, rfl, rfl, rfl, rfl, rfl, rfl, rfl, rfl, rfl⟩,
        fun hne => absurd hbc0nil hne⟩
    | some bc =>
      have hredA : ingestFinalize db2 msg rangesTs env bc0
          = setReport
              (if bc ≠ [] then
                setReport db2 msg.repo_id msg.branch (fun r => { r with base_commit := bc })
              else db2)
              msg.repo_id msg.branch
              (fun r => { r with status := "completed".data, updated_at := rangesTs }) := by
        rw [hred, if_pos hcl, hbr]
      by_cases hbce : bc ≠ []
      · rw [hredA, if_pos hbce]
        refine ⟨fun a => { a with
            base_commit := bc, status := "completed".data, updated_at := rangesTs },
          ?_, rfl, rfl, rfl,
          fun a => ⟨rfl, rfl, rfl, rfl, rfl, rfl, rfl, rfl, rfl, rfl, rfl, rfl, rfl⟩,
          fun hne => absurd hbc0nil hne⟩
        rw [setReport_reports, setReport_reports]
        rw [updateFirst_updateFirst
          (fun r => r.repo_id == msg.repo_id && r.branch == msg.branch)
          (fun r => { r with base_commit := bc })
          (fun r => { r with status := "completed".data, updated_at := rangesTs })
          (fun a => rfl) db2.reports]
      · rw [hredA, if_neg hbce]
        exact ⟨fun r => { r with status := "completed".data, updated_at := rangesTs },
          rfl, rfl, rfl, rfl,
          fun a => ⟨rfl, rfl, rfl, rfl, rfl, rfl, rfl, rfl, rfl, rfl, rfl, rfl, rfl⟩,
          fun hne => absurd hbc0nil hne⟩
  · have hred2 : ingestFinalize db2 msg rangesTs env bc0
        = setReport db2 msg.repo_id msg.branch
            (fun r => { r with status := "completed".data, updated_at := rangesTs }) := by
      rw [hred, if_neg hcl]
    rw [hred2]
    exact ⟨fun r => { r with status := "completed".data, updated_at := rangesTs },
      rfl, rfl, rfl, rfl,
      fun a => ⟨rfl, rfl, rfl, rfl, rfl, rfl, rfl, rfl, rfl, rfl, rfl, rfl, rfl⟩,
      fun _ => fun a => rfl⟩

/-- Reduced form of a successful (admitted, parseable) ingestion. -/
theorem process_success_form (db0 : DB) (msg : Msg) (now updateNow rangesTs : Int)
    (env : MatEnv) (cfg : Config) (entries : List (PyStr × List RangeItem))
    (hcfg : lookupConfig db0 msg.repo_id = some cfg)
    (hparse : parse_by_format msg.format msg.raw = some entries) :
    (process_coverage_report db0 msg now updateNow rangesTs env).db
        = ingestFinalize
            (processFiles msg.repo_id msg.branch rangesTs entries
              (ingestUpsertReport db0 msg now cfg.repo_name cfg.base_branch))
            msg rangesTs env
            (((lookupReport (ingestUpsertReport db0 msg now cfg.repo_name cfg.base_branch)
                msg.repo_id msg.branch).map Report.base_commit).getD []) ∧
      (process_coverage_report db0 msg now updateNow rangesTs env).result = .ok := by
  constructor
  · unfold process_coverage_report
    rw [hcfg, hparse]
  · unfold process_coverage_report
    rw [hcfg, hparse]

/-- Reduced form of an unsupported-format ingestion. -/
theorem process_unsupported_form (db0 : DB) (msg : Msg) (now updateNow rangesTs : Int)
    (env : MatEnv) (cfg : Config)
    (hcfg : lookupConfig db0 msg.repo_id = some cfg)
    (hparse : parse_by_format msg.format msg.raw = none) :
    process_coverage_report db0 msg now updateNow rangesTs env
      = ⟨setReport (ingestUpsertReport db0 msg now cfg.repo_name cfg.base_branch)
          msg.repo_id msg.branch
          (fun r =>
            { r with
              status := "failed".data
              error_message := "unsupported coverage format: ".data ++ msg.format
              updated_at := updateNow }),
        .raised, [.configCheck, .upsertReport, .commitTx]⟩ := by
  unfold process_coverage_report
  rw [hcfg, hparse]

/-- Every ingestion either keeps the multiset of report keys or appends
the message's key, the latter only when no row with that key existed. -/
theorem process_reports_keys (db : DB) (msg : Msg) (now updateNow rangesTs : Int)
    (env : MatEnv) :
    ((process_coverage_report db msg now updateNow rangesTs env).db.reports.map reportKey
        = db.reports.map reportKey) ∨
    ((process_coverage_report db msg now updateNow rangesTs env).db.reports.map reportKey
        = db.reports.map reportKey ++ [(msg.repo_id, msg.branch)] ∧
      lookupReport db msg.repo_id msg.branch = none) := by
  cases hcfg : lookupConfig db msg.repo_id with
  | none =>
    left
    have hform : process_coverage_report db msg now updateNow rangesTs env
        = ⟨db, .ok, [.configCheck]⟩ := by
      unfold process_coverage_report
      rw [hcfg]
    rw [hform]
  | some cfg =>
    have hkey1 :
        ((ingestUpsertReport db msg now cfg.repo_name cfg.base_branch).reports.map reportKey
            = db.reports.map reportKey) ∨
        ((ingestUpsertReport db msg now cfg.repo_name cfg.base_branch).reports.map reportKey
            = db.reports.map reportKey ++ [(msg.repo_id, msg.branch)] ∧
          lookupReport db msg.repo_id msg.branch = none) := by
      cases hlr : lookupReport db msg.repo_id msg.branch with
      | some r =>
        left
        rw [ingestUpsertReport_update db msg now _ _ r hlr]
        exact updateFirst_map (fun x => x.repo_id == msg.repo_id && x.branch == msg.branch)
          (mkUpdatedReport msg cfg.repo_name now) reportKey (fun a => rfl) db.reports
      | none =>
        right
        rw [ingestUpsertReport_insert db msg now _ _ hlr]
        exact ⟨by rw [List.map_append]; rfl, rfl⟩
    cases hparse : parse_by_format msg.format msg.raw with
    | none =>
      have hform := process_unsupported_form db msg now updateNow rangesTs env cfg hcfg hparse
      rw [hform]
      have hmap : (setReport (ingestUpsertReport db msg now cfg.repo_name cfg.base_branch)
            msg.repo_id msg.branch
            (fun r =>
              { r with
                status := "failed".data
                error_message := "unsupported coverage format: ".data ++ msg.format
                updated_at := updateNow })).reports.map reportKey
          = (ingestUpsertReport db msg now cfg.repo_name cfg.base_branch).reports.map
              reportKey := by
        rw [setReport_reports]
        exact updateFirst_map (fun r => r.repo_id == msg.repo_id && r.branch == msg.branch)
          (fun r =>
            { r with
              status := "failed".data
              error_message := "unsupported coverage format: ".data ++ msg.format
              updated_at := updateNow })
          reportKey (fun a => rfl) _
      rcases hkey1 with h | ⟨h, hn⟩
      · left; rw [hmap, h]
      · right; exact ⟨by rw [hmap, h], hn⟩
    | some entries =>
      have hform :=
        (process_success_form db msg now updateNow rangesTs env cfg entries hcfg hparse).1
      rw [hform]
      obtain ⟨g, hrep, _, _, _, hprops, _⟩ := ingestFinalize_reports
        (processFiles msg.repo_id msg.branch rangesTs entries
          (ingestUpsertReport db msg now cfg.repo_name cfg.base_branch))
        msg rangesTs env
        (((lookupReport (ingestUpsertReport db msg now cfg.repo_name cfg.base_branch)
            msg.repo_id msg.branch).map Report.base_commit).getD [])
      have hmap : (ingestFinalize
            (processFiles msg.repo_id msg.branch rangesTs entries
              (ingestUpsertReport db msg now cfg.repo_name cfg.base_branch))
            msg rangesTs env
            (((lookupReport (ingestUpsertReport db msg now cfg.repo_name cfg.base_branch)
                msg.repo_id msg.branch).map Report.base_commit).getD [])).reports.map reportKey
          = (ingestUpsertReport db msg now cfg.repo_name cfg.base_branch).reports.map
              reportKey := by
        rw [hrep]
        rw [updateFirst_map _ _ reportKey
          (fun a => by unfold reportKey; rw [(hprops a).1, (hprops a).2.1])]
        rw [processFiles_reports]
      rcases hkey1 with h | ⟨h, hn⟩
      · left; rw [hmap, h]
      · right; exact ⟨by rw [hmap, h], hn⟩

/-- C5: ingestion preserves «at most one Report row per
`(repo_id, branch)`» (a fresh row is inserted only when no row with the
message's key exists), and ingestion of a message for an existing key
mutates that row in place — no new row, commit/CI/format/raw updated,
status `completed`, `updated_at = rangesTs` — while preserving
`created_at`, `base_branch`, and any existing non-empty `base_commit`. -/
theorem report_upsert_semantics :
    (∀ (db : DB) (msg : Msg) (now updateNow rangesTs : Int) (env : MatEnv),
      reportKeysUnique db →
      reportKeysUnique (process_coverage_report db msg now updateNow rangesTs env).db) ∧
    (∀ (db : DB) (msg : Msg) (now updateNow rangesTs : Int) (env : MatEnv)
      (cfg : Config) (r : Report) (entries : List (PyStr × List RangeItem)),
      lookupConfig db msg.repo_id = some cfg →
      lookupReport db msg.repo_id msg.branch = some r →
      parse_by_format msg.format msg.raw = some entries →
      (process_coverage_report db msg now updateNow rangesTs env).result = .ok ∧
      (process_coverage_report db msg now updateNow rangesTs env).db.reports.length
        = db.reports.length ∧
      ∃ r', lookupReport (process_coverage_report db msg now updateNow rangesTs env).db
            msg.repo_id msg.branch = some r' ∧
        r'.commit = msg.commit ∧ r'.ci_provider = msg.ci_provider ∧
        r'.ci_pipeline_id = msg.ci_pipeline_id ∧ r'.ci_job_id = msg.ci_job_id ∧
        r'.coverage_format = msg.format ∧ r'.coverage_raw = msg.raw ∧
        r'.status = "completed".data ∧ r'.updated_at = rangesTs ∧
        r'.created_at = r.created_at ∧ r'.base_branch = r.base_branch ∧
        (r.base_commit ≠ [] → r'.base_commit = r.base_commit)) := by
  constructor
  · intro db msg now updateNow rangesTs env hu
    rcases process_reports_keys db msg now updateNow rangesTs env with h | ⟨h, hn⟩
    · unfold reportKeysUnique at hu ⊢
      rw [h]
      exact hu
    · unfold reportKeysUnique at hu ⊢
      rw [h, List.nodup_append]
      refine ⟨hu, List.nodup_singleton _, ?_⟩
      intro a hal hak
      rw [List.mem_singleton] at hak
      subst hak
      obtain ⟨x, hx, hxk⟩ := List.mem_map.mp hal
      have hnone : ¬ ((x.repo_id == msg.repo_id && x.branch == msg.branch) = true) :=
        List.find?_eq_none.mp hn x hx
      apply hnone
      have h1 : x.repo_id = msg.repo_id := congrArg Prod.fst hxk
      have h2 : x.branch = msg.branch := congrArg Prod.snd hxk
      rw [h1, h2]
      simp
  · intro db msg now updateNow rangesTs env cfg r entries hcfg hrep hparse
    obtain ⟨hdb, hok⟩ :=
      process_success_form db msg now updateNow rangesTs env cfg entries hcfg hparse
    have hup := ingestUpsertReport_update db msg now cfg.repo_name cfg.base_branch r hrep
    have hfind0 : db.reports.find? (fun x => x.repo_id == msg.repo_id && x.branch == msg.branch)
        = some r := hrep
    have hbc0 : (((lookupReport (ingestUpsertReport db msg now cfg.repo_name cfg.base_branch)
        msg.repo_id msg.branch)).map Report.base_commit).getD [] = r.base_commit := by
      rw [hup]
      show (((updateFirst (fun x => x.repo_id == msg.repo_id && x.branch == msg.branch)
          (mkUpdatedReport msg cfg.repo_name now) db.reports).find?
          (fun x => x.repo_id == msg.repo_id && x.branch == msg.branch)).map
          Report.base_commit).getD [] = r.base_commit
      rw [updateFirst_find? (fun x => x.repo_id == msg.repo_id && x.branch == msg.branch)
        (mkUpdatedReport msg cfg.repo_name now) (fun a => rfl) db.reports]
      rw [hfind0]
      rfl
    rw [hbc0] at hdb
    obtain ⟨g, hrepG, _, _, _, hprops, hbase⟩ := ingestFinalize_reports
      (processFiles msg.repo_id msg.branch rangesTs entries
        (ingestUpsertReport db msg now cfg.repo_name cfg.base_branch))
      msg rangesTs env r.base_commit
    have hdb2reports : (processFiles msg.repo_id msg.branch rangesTs entries
        (ingestUpsertReport db msg now cfg.repo_name cfg.base_branch)).reports
        = updateFirst (fun x => x.repo_id == msg.repo_id && x.branch == msg.branch)
          (mkUpdatedReport msg cfg.repo_name now) db.reports := by
      rw [processFiles_reports, hup]
    refine ⟨hok, ?_, ?_⟩
    · rw [hdb, hrepG, updateFirst_length, hdb2reports, updateFirst_length]
    · refine ⟨g (mkUpdatedReport msg cfg.repo_name now r), ?_, ?_, ?_, ?_, ?_, ?_, ?_, ?_,
        ?_, ?_, ?_, ?_⟩
      · unfold lookupReport
        rw [hdb, hrepG, hdb2reports]
        rw [updateFirst_updateFirst
          (fun x => x.repo_id == msg.repo_id && x.branch == msg.branch)
          (mkUpdatedReport msg cfg.repo_name now) g (fun a => rfl) db.reports]
        rw [updateFirst_find?
          (fun x => x.repo_id == msg.repo_id && x.branch == msg.branch)
          (fun a => g (mkUpdatedReport msg cfg.repo_name now a))
          (fun a => by
            show ((g (mkUpdatedReport msg cfg.repo_name now a)).repo_id == msg.repo_id &&
                (g (mkUpdatedReport msg cfg.repo_name now a)).branch == msg.branch)
                = (a.repo_id == msg.repo_id && a.branch == msg.branch)
            rw [(hprops (mkUpdatedReport msg cfg.repo_name now a)).1,
              (hprops (mkUpdatedReport msg cfg.repo_name now a)).2.1]
            rfl)
          db.reports]
        rw [hfind0]
        rfl
      · exact ((hprops _).2.2.2.2.2.2.1).trans rfl
      · exact ((hprops _).2.2.2.2.2.2.2.2.2.1).trans rfl
      · exact ((hprops _).2.2.2.2.2.2.2.2.2.2.1).trans rfl
      · exact ((hprops _).2.2.2.2.2.2.2.2.2.2.2.1).trans rfl
      · exact ((hprops _).2.2.2.2.2.2.2.1).trans rfl
      · exact ((hprops _).2.2.2.2.2.2.2.2.1).trans rfl
      · exact (hprops _).2.2.1
      · exact (hprops _).2.2.2.1
      · exact ((hprops _).2.2.2.2.1).trans rfl
      · exact ((hprops _).2.2.2.2.2.1).trans rfl
      · exact fun hne => (hbase hne _).trans rfl

/-- A successful `findLast?` returns a member satisfying the predicate. -/
theorem findLast?_some (p : α → Bool) :
    ∀ (l : List α) (a : α), findLast? p l = some a → a ∈ l ∧ p a = true := by
  intro l
  induction l with
  | nil => intro a h; simp [findLast?] at h
  | cons x xs ih =>
    intro a h
    unfold findLast? at h
    cases hxs : findLast? p xs with
    | some y =>
      rw [hxs] at h
      injection h with h'
      subst h'
      obtain ⟨hm, hp⟩ := ih y hxs
      exact ⟨List.mem_cons_of_mem _ hm, hp⟩
    | none =>
      rw [hxs] at h
      by_cases hx : p x = true
      · rw [if_pos hx] at h
        injection h with h'
        subst h'
        exact ⟨List.mem_cons_self _ _, hx⟩
      · rw [if_neg hx] at h
        simp at h

/-- A failed `findLast?` means no member satisfies the predicate. -/
theorem findLast?_none (p : α → Bool) :
    ∀ l : List α, findLast? p l = none → ∀ a ∈ l, p a = false := by
  intro l
  induction l with
  | nil => intro _ a ha; simp at ha
  | cons x xs ih =>
    intro h a ha
    unfold findLast? at h
    cases hxs : findLast? p xs with
    | some y => rw [hxs] at h; simp at h
    | none =>
      rw [hxs] at h
      by_cases hx : p x = true
      · rw [if_pos hx] at h; simp at h
      · rw [if_neg hx] at h
        rcases List.mem_cons.mp ha with he | hm
        · subst he; simpa using hx
        · exact ih hxs a hm

/-- `updateLast` is invisible to any projection the update preserves. -/
theorem updateLast_map (p : α → Bool) (g : α → α) (h : α → β) (hgh : ∀ a, h (g a) = h a) :
    ∀ l : List α, (updateLast p g l).map h = l.map h := by
  intro l
  induction l with
  | nil => rfl
  | cons x xs ih =>
    unfold updateLast
    by_cases ha : xs.any p = true
    · rw [if_pos ha]
      simp [ih]
    · rw [if_neg ha]
      by_cases hx : p x = true
      · rw [if_pos hx]
        simp [hgh]
      · rw [if_neg hx]

/-- Elements not matching the predicate survive `updateLast` unchanged. -/
theorem mem_updateLast_of_neg (p : α → Bool) (g : α → α) :
    ∀ (l : List α) (a : α), a ∈ l → p a = false → a ∈ updateLast p g l := by
  intro l
  induction l with
  | nil => intro a ha _; simp at ha
  | cons x xs ih =>
    intro a ha hpa
    unfold updateLast
    by_cases hany : xs.any p = true
    · rw [if_pos hany]
      rcases List.mem_cons.mp ha with he | hm
      · subst he; exact List.mem_cons_self _ _
      · exact List.mem_cons_of_mem _ (ih a hm hpa)
    · rw [if_neg hany]
      by_cases hx : p x = true
      · rw [if_pos hx]
        rcases List.mem_cons.mp ha with he | hm
        · subst he; rw [hx] at hpa; cases hpa
        · exact List.mem_cons_of_mem _ hm
      · rw [if_neg hx]
        exact ha

/-- The row `findLast?` found is replaced (updated) in `updateLast`. -/
theorem mem_updateLast_updated (p : α → Bool) (g : α → α) :
    ∀ (l : List α) (a : α), findLast? p l = some a → g a ∈ updateLast p g l := by
  intro l
  induction l with
  | nil => intro a h; simp [findLast?] at h
  | cons x xs ih =>
    intro a h
    unfold findLast? at h
    unfold updateLast
    cases hxs : findLast? p xs with
    | some y =>
      rw [hxs] at h
      injection h with h'
      subst h'
      have hany : xs.any p = true := by
        obtain ⟨hm, hp⟩ := findLast?_some p xs y hxs
        exact List.any_eq_true.mpr ⟨y, hm, hp⟩
      rw [if_pos hany]
      exact List.mem_cons_of_mem _ (ih y hxs)
    | none =>
      rw [hxs] at h
      by_cases hx : p x = true
      · rw [if_pos hx] at h
        injection h with h'
        subst h'
        have hany : xs.any p = false := by
          rw [List.any_eq_false]
          intro b hb
          simp [findLast?_none p xs hxs b hb]
        rw [if_neg (by rw [hany]; simp), if_pos hx]
        exact List.mem_cons_self _ _
      · rw [if_neg hx] at h
        simp at h

/-- Filtering with `q` after keeping only `p`, when `q` implies `p`. -/
theorem filter_filter_of_imp (p q : α → Bool) (h : ∀ a, q a = true → p a = true) :
    ∀ l : List α, (l.filter p).filter q = l.filter q := by
  intro l
  induction l with
  | nil => rfl
  | cons a l ih =>
    by_cases hq : q a = true
    · rw [List.filter_cons, if_pos (h a hq), List.filter_cons, if_pos hq,
        List.filter_cons, if_pos hq, ih]
    · by_cases hp : p a = true
      · rw [List.filter_cons, if_pos hp, List.filter_cons, if_neg hq,
          List.filter_cons, if_neg hq]
        exact ih
      · rw [List.filter_cons, if_neg hp, List.filter_cons, if_neg hq]
        exact ih

/-- Filtering with `q` after keeping only `p`, when `q` excludes `p`. -/
theorem filter_filter_of_contra (p q : α → Bool) (h : ∀ a, q a = true → p a = false) :
    ∀ l : List α, (l.filter p).filter q = [] := by
  intro l
  induction l with
  | nil => rfl
  | cons a l ih =>
    by_cases hq : q a = true
    · rw [List.filter_cons, if_neg (by rw [h a hq]; simp)]
      exact ih
    · by_cases hp : p a = true
      · rw [List.filter_cons, if_pos hp, List.filter_cons, if_neg hq]
        exact ih
      · rw [List.filter_cons, if_neg hp]
        exact ih

/-- A mapped list whose images all satisfy the filter is kept whole. -/
theorem filter_map_all (f : β → α) (q : α → Bool) (h : ∀ b, q (f b) = true) :
    ∀ rs : List β, (rs.map f).filter q = rs.map f := by
  intro rs
  induction rs with
  | nil => rfl
  | cons b bs ih => rw [List.map_cons, List.filter_cons, if_pos (h b), ih]

/-- A mapped list whose images all fail the filter vanishes. -/
theorem filter_map_none (f : β → α) (q : α → Bool) (h : ∀ b, q (f b) = false) :
    ∀ rs : List β, (rs.map f).filter q = [] := by
  intro rs
  induction rs with
  | nil => rfl
  | cons b bs ih => rw [List.map_cons, List.filter_cons, if_neg (by rw [h b]; simp), ih]

/-- One file-loop iteration keeps the file table well-formed, never
shrinks the id counter, and leaves the entry's file row holding exactly
the freshly parsed Range set. -/
theorem processOneFile_spec (rid br : PyStr) (ts : Int) (db : DB) (e : PyStr × List RangeItem)
    (hwf : filesWF db) :
    filesWF (processOneFile rid br ts db e) ∧
    db.nextFileId ≤ (processOneFile rid br ts db e).nextFileId ∧
    ∃ f, f ∈ (processOneFile rid br ts db e).files ∧ fileKeyIs rid br e.1 f = true ∧
      (processOneFile rid br ts db e).ranges.filter (fun x => x.file_id == f.id)
        = e.2.map (mkRangeRow f.id ts) := by
  obtain ⟨hids, hbound, htrip⟩ := hwf
  cases hfl : findLast? (fileKeyIs rid br e.1) db.files with
  | some f0 =>
    have hfiles : (processOneFile rid br ts db e).files
        = updateLast (fileKeyIs rid br e.1) (fun x => { x with updated_at := ts }) db.files := by
      unfold processOneFile
      rw [hfl]
    have hranges : (processOneFile rid br ts db e).ranges
        = db.ranges.filter (fun r => !(r.file_id == f0.id)) ++ e.2.map (mkRangeRow f0.id ts) := by
      unfold processOneFile
      rw [hfl]
    have hnext : (processOneFile rid br ts db e).nextFileId = db.nextFileId := by
      unfold processOneFile
      rw [hfl]
    refine ⟨⟨?_, ?_, ?_⟩, ?_, ?_⟩
    · rw [hfiles, updateLast_map (fileKeyIs rid br e.1)
        (fun x => { x with updated_at := ts }) CovFile.id (fun a => rfl)]
      exact hids
    · intro f hf
      rw [hfiles] at hf
      rw [hnext]
      have hmm : f.id ∈ (updateLast (fileKeyIs rid br e.1)
          (fun x => { x with updated_at := ts }) db.files).map CovFile.id :=
        List.mem_map_of_mem _ hf
      rw [updateLast_map (fileKeyIs rid br e.1)
        (fun x => { x with updated_at := ts }) CovFile.id (fun a => rfl)] at hmm
      obtain ⟨x, hx, hxe⟩ := List.mem_map.mp hmm
      rw [← hxe]
      exact hbound x hx
    · rw [hfiles, updateLast_map (fileKeyIs rid br e.1)
        (fun x => { x with updated_at := ts })
        (fun f : CovFile => (f.repo_id, f.branch, f.file_path)) (fun a => rfl)]
      exact htrip
    · rw [hnext]
    · refine ⟨{ f0 with updated_at := ts }, ?_, ?_, ?_⟩
      · rw [hfiles]
        exact mem_updateLast_updated _ _ db.files f0 hfl
      · exact (findLast?_some _ db.files f0 hfl).2
      · show (processOneFile rid br ts db e).ranges.filter (fun x => x.file_id == f0.id)
          = e.2.map (mkRangeRow f0.id ts)
        rw [hranges, List.filter_append]
        rw [filter_filter_of_contra (fun r => !(r.file_id == f0.id))
          (fun x => x.file_id == f0.id)
          (fun a ha => by
            have ha' : (a.file_id == f0.id) = true := ha
            show (!(a.file_id == f0.id)) = false
            rw [ha']
            rfl) db.ranges]
        rw [filter_map_all (mkRangeRow f0.id ts) (fun x => x.file_id == f0.id)
          (fun b => by simp [mkRangeRow])]
        rw [List.nil_append]
  | none =>
    have hfiles : (processOneFile rid br ts db e).files
        = db.files ++ [⟨db.nextFileId, rid, br, e.1, ts, ts⟩] := by
      unfold processOneFile
      rw [hfl]
    have hranges : (processOneFile rid br ts db e).ranges
        = db.ranges.filter (fun r => !(r.file_id == db.nextFileId)) ++
          e.2.map (mkRangeRow db.nextFileId ts) := by
      unfold processOneFile
      rw [hfl]
    have hnext : (processOneFile rid br ts db e).nextFileId = db.nextFileId + 1 := by
      unfold processOneFile
      rw [hfl]
    refine ⟨⟨?_, ?_, ?_⟩, ?_, ?_⟩
    · rw [hfiles, List.map_append]
      show (db.files.map CovFile.id ++ [db.nextFileId]).Nodup
      rw [List.nodup_append]
      refine ⟨hids, List.nodup_singleton _, ?_⟩
      intro a ha hb
      rw [List.mem_singleton] at hb
      subst hb
      obtain ⟨x, hx, hxe⟩ := List.mem_map.mp ha
      have := hbound x hx
      omega
    · intro f hf
      rw [hnext]
      rw [hfiles] at hf
      rcases List.mem_append.mp hf with hm | hm
      · exact Nat.lt_succ_of_lt (hbound f hm)
      · rw [List.mem_singleton] at hm
        subst hm
        exact Nat.lt_succ_self _
    · rw [hfiles, List.map_append]
      show (db.files.map (fun f => (f.repo_id, f.branch, f.file_path)) ++ [(rid, br, e.1)]).Nodup
      rw [List.nodup_append]
      refine ⟨htrip, List.nodup_singleton _, ?_⟩
      intro a ha hb
      rw [List.mem_singleton] at hb
      subst hb
      obtain ⟨x, hx, hxe⟩ := List.mem_map.mp ha
      have hfalse := findLast?_none _ db.files hfl x hx
      have h1 : x.repo_id = rid := congrArg Prod.fst hxe
      have h2 : x.branch = br := congrArg (fun q => q.2.1) hxe
      have h3 : x.file_path = e.1 := congrArg (fun q => q.2.2) hxe
      rw [show fileKeyIs rid br e.1 x = true by
        unfold fileKeyIs; rw [h1, h2, h3]; simp] at hfalse
      cases hfalse
    · rw [hnext]
      exact Nat.le_succ _
    · refine ⟨⟨db.nextFileId, rid, br, e.1, ts, ts⟩, ?_, ?_, ?_⟩
      · rw [hfiles]
        exact List.mem_append_right _ (List.mem_singleton_self _)
      · unfold fileKeyIs
        simp
      · show (processOneFile rid br ts db e).ranges.filter
            (fun x => x.file_id == db.nextFileId)
          = e.2.map (mkRangeRow db.nextFileId ts)
        rw [hranges, List.filter_append]
        rw [filter_filter_of_contra (fun r => !(r.file_id == db.nextFileId))
          (fun x => x.file_id == db.nextFileId)
          (fun a ha => by
            have ha' : (a.file_id == db.nextFileId) = true := ha
            show (!(a.file_id == db.nextFileId)) = false
            rw [ha']
            rfl) db.ranges]
        rw [filter_map_all (mkRangeRow db.nextFileId ts) (fun x => x.file_id == db.nextFileId)
          (fun b => by simp [mkRangeRow])]
        rw [List.nil_append]

/-- Unfolding of the file-key predicate into propositional equalities. -/
theorem fileKeyIs_true_iff (rid br fp : PyStr) (f : CovFile) :
    fileKeyIs rid br fp f = true ↔ f.repo_id = rid ∧ f.branch = br ∧ f.file_path = fp := by
  unfold fileKeyIs
  simp [and_assoc]

/-- One file-loop iteration leaves every file row with a different
file_path (same repo/branch) untouched, together with its Range rows. -/
theorem processOneFile_frame (rid br : PyStr) (ts : Int) (db : DB) (e : PyStr × List RangeItem)
    (f : CovFile) (fp : PyStr) (hwf : filesWF db)
    (hf : f ∈ db.files) (hkey : fileKeyIs rid br fp f = true) (hne : e.1 ≠ fp) :
    f ∈ (processOneFile rid br ts db e).files ∧
    (processOneFile rid br ts db e).ranges.filter (fun x => x.file_id == f.id)
      = db.ranges.filter (fun x => x.file_id == f.id) := by
  obtain ⟨hids, hbound, htrip⟩ := hwf
  have hkey3 := (fileKeyIs_true_iff rid br fp f).mp hkey
  have hpf : fileKeyIs rid br e.1 f = false := by
    cases hpe : fileKeyIs rid br e.1 f with
    | false => rfl
    | true =>
      have h3 := (fileKeyIs_true_iff rid br e.1 f).mp hpe
      exact absurd (h3.2.2.symm.trans hkey3.2.2) hne
  cases hfl : findLast? (fileKeyIs rid br e.1) db.files with
  | some f0 =>
    have hfiles : (processOneFile rid br ts db e).files
        = updateLast (fileKeyIs rid br e.1) (fun x => { x with updated_at := ts }) db.files := by
      unfold processOneFile
      rw [hfl]
    have hranges : (processOneFile rid br ts db e).ranges
        = db.ranges.filter (fun r => !(r.file_id == f0.id)) ++ e.2.map (mkRangeRow f0.id ts) := by
      unfold processOneFile
      rw [hfl]
    have hf0 := findLast?_some _ db.files f0 hfl
    have hfne : f.id ≠ f0.id := by
      intro hide
      have heq : f = f0 := List.inj_on_of_nodup_map hids hf hf0.1 hide
      have h3 := (fileKeyIs_true_iff rid br e.1 f0).mp hf0.2
      apply hne
      rw [← h3.2.2, ← heq]
      exact hkey3.2.2
    have hid_ne : (f.id == f0.id) = false := by
      cases hbe : (f.id == f0.id) with
      | false => rfl
      | true => exact absurd (eq_of_beq hbe) hfne
    have hid_ne' : (f0.id == f.id) = false := by
      cases hbe : (f0.id == f.id) with
      | false => rfl
      | true => exact absurd (eq_of_beq hbe).symm hfne
    have himp : ∀ a : RangeRow, (fun x => x.file_id == f.id) a = true →
        (fun r => !(r.file_id == f0.id)) a = true := by
      intro a ha
      have ha' : a.file_id = f.id := eq_of_beq ha
      show (!(a.file_id == f0.id)) = true
      rw [ha', hid_ne]
      rfl
    have hnone : ∀ b : RangeItem,
        (fun x => x.file_id == f.id) (mkRangeRow f0.id ts b) = false := by
      intro b
      show (f0.id == f.id) = false
      exact hid_ne'
    refine ⟨?_, ?_⟩
    · rw [hfiles]
      exact mem_updateLast_of_neg _ _ db.files f hf hpf
    · rw [hranges, List.filter_append, filter_filter_of_imp _ _ himp db.ranges,
        filter_map_none _ _ hnone e.2, List.append_nil]
  | none =>
    have hfiles : (processOneFile rid br ts db e).files
        = db.files ++ [⟨db.nextFileId, rid, br, e.1, ts, ts⟩] := by
      unfold processOneFile
      rw [hfl]
    have hranges : (processOneFile rid br ts db e).ranges
        = db.ranges.filter (fun r => !(r.file_id == db.nextFileId)) ++
          e.2.map (mkRangeRow db.nextFileId ts) := by
      unfold processOneFile
      rw [hfl]
    have hfne : f.id ≠ db.nextFileId := by
      have := hbound f hf
      omega
    have hid_ne : (f.id == db.nextFileId) = false := by
      cases hbe : (f.id == db.nextFileId) with
      | false => rfl
      | true => exact absurd (eq_of_beq hbe) hfne
    have hid_ne' : (db.nextFileId == f.id) = false := by
      cases hbe : (db.nextFileId == f.id) with
      | false => rfl
      | true => exact absurd (eq_of_beq hbe).symm hfne
    have himp : ∀ a : RangeRow, (fun x => x.file_id == f.id) a = true →
        (fun r => !(r.file_id == db.nextFileId)) a = true := by
      intro a ha
      have ha' : a.file_id = f.id := eq_of_beq ha
      show (!(a.file_id == db.nextFileId)) = true
      rw [ha', hid_ne]
      rfl
    have hnone : ∀ b : RangeItem,
        (fun x => x.file_id == f.id) (mkRangeRow db.nextFileId ts b) = false := by
      intro b
      show (db.nextFileId == f.id) = false
      exact hid_ne'
    refine ⟨?_, ?_⟩
    · rw [hfiles]
      exact List.mem_append_left _ hf
    · rw [hranges, List.filter_append, filter_filter_of_imp _ _ himp db.ranges,
        filter_map_none _ _ hnone e.2, List.append_nil]

/-- Witness for `report_upsert_semantics`: re-ingesting a new commit
for `(42, main)` into `db42after` mutates `report42` in place. -/
theorem report_upsert_semantics_witness :
    reportKeysUnique (process_coverage_report db42 msgGoc 5 6 7 matEnvNone).db ∧
    ((process_coverage_report db42after msgGocSmall 8 9 10 matEnvNone).result = .ok ∧
      (process_coverage_report db42after msgGocSmall 8 9 10 matEnvNone).db.reports.length
        = db42after.reports.length ∧
      ∃ r', lookupReport (process_coverage_report db42after msgGocSmall 8 9 10 matEnvNone).db
            msgGocSmall.repo_id msgGocSmall.branch = some r' ∧
        r'.commit = msgGocSmall.commit ∧ r'.ci_provider = msgGocSmall.ci_provider ∧
        r'.ci_pipeline_id = msgGocSmall.ci_pipeline_id ∧ r'.ci_job_id = msgGocSmall.ci_job_id ∧
        r'.coverage_format = msgGocSmall.format ∧ r'.coverage_raw = msgGocSmall.raw ∧
        r'.status = "completed".data ∧ r'.updated_at = 10 ∧
        r'.created_at = report42.created_at ∧ r'.base_branch = report42.base_branch ∧
        (report42.base_commit ≠ [] → r'.base_commit = report42.base_commit)) :=
  ⟨report_upsert_semantics.1 db42 msgGoc 5 6 7 matEnvNone
      (by unfold reportKeysUnique; decide),
    report_upsert_semantics.2 db42after msgGocSmall 8 9 10 matEnvNone cfg42 report42
      (parse_goc_coverage msgGocSmall.raw) (by decide) (by decide) (by decide)⟩

/-- Folding the file loop preserves well-formedness of the file table
and never decreases the id counter. -/
theorem processFiles_wf (rid br : PyStr) (ts : Int) :
    ∀ (entries : List (PyStr × List RangeItem)) (db : DB), filesWF db →
      filesWF (processFiles rid br ts entries db) ∧
      db.nextFileId ≤ (processFiles rid br ts entries db).nextFileId := by
  intro entries
  induction entries with
  | nil => intro db h; exact ⟨h, Nat.le_refl _⟩
  | cons e es ih =>
    intro db h
    show filesWF (processFiles rid br ts es (processOneFile rid br ts db e)) ∧
      db.nextFileId ≤ (processFiles rid br ts es (processOneFile rid br ts db e)).nextFileId
    obtain ⟨h1, h2, _⟩ := processOneFile_spec rid br ts db e h
    obtain ⟨h3, h4⟩ := ih (processOneFile rid br ts db e) h1
    exact ⟨h3, Nat.le_trans h2 h4⟩

/-- The file loop never touches a file whose path is absent from the
parsed entry list: such a row and its Range rows survive unchanged. -/
theorem processFiles_frame (rid br : PyStr) (ts : Int) :
    ∀ (entries : List (PyStr × List RangeItem)) (db : DB) (f : CovFile) (fp : PyStr),
      filesWF db → f ∈ db.files → fileKeyIs rid br fp f = true →
      (∀ e ∈ entries, e.1 ≠ fp) →
      f ∈ (processFiles rid br ts entries db).files ∧
      (processFiles rid br ts entries db).ranges.filter (fun x => x.file_id == f.id)
        = db.ranges.filter (fun x => x.file_id == f.id) := by
  intro entries
  induction entries with
  | nil => intro db f fp _ hf _ _; exact ⟨hf, rfl⟩
  | cons e es ih =>
    intro db f fp hwf hf hkey hnot
    have hne : e.1 ≠ fp := hnot e (List.mem_cons_self e es)
    obtain ⟨hf1, hr1⟩ := processOneFile_frame rid br ts db e f fp hwf hf hkey hne
    have hwf1 := (processOneFile_spec rid br ts db e hwf).1
    obtain ⟨hf2, hr2⟩ := ih (processOneFile rid br ts db e) f fp hwf1 hf1 hkey
      (fun x hx => hnot x (List.mem_cons_of_mem e hx))
    show f ∈ (processFiles rid br ts es (processOneFile rid br ts db e)).files ∧
      (processFiles rid br ts es (processOneFile rid br ts db e)).ranges.filter
          (fun x => x.file_id == f.id)
        = db.ranges.filter (fun x => x.file_id == f.id)
    exact ⟨hf2, hr2.trans hr1⟩

/-- Running the whole file loop on an entry list with distinct paths
leaves, for each entry, a single file row whose Range rows are exactly
the ranges parsed for that entry. -/
theorem processFiles_establish (rid br : PyStr) (ts : Int) :
    ∀ (entries : List (PyStr × List RangeItem)) (db : DB) (ek : PyStr) (rs : List RangeItem),
      filesWF db → (entries.map Prod.fst).Nodup → (ek, rs) ∈ entries →
      ∃ f, f ∈ (processFiles rid br ts entries db).files ∧
        fileKeyIs rid br ek f = true ∧
        (processFiles rid br ts entries db).ranges.filter (fun x => x.file_id == f.id)
          = rs.map (mkRangeRow f.id ts) := by
  intro entries
  induction entries with
  | nil => intro db ek rs _ _ hmem; simp at hmem
  | cons e es ih =>
    intro db ek rs hwf hnd hmem
    have hwf1 := (processOneFile_spec rid br ts db e hwf).1
    rw [List.map_cons] at hnd
    rcases List.mem_cons.mp hmem with heq | hmem'
    · subst heq
      obtain ⟨_, _, f, hfmem, hfkey, hfilt⟩ :=
        processOneFile_spec rid br ts db ((ek, rs) : PyStr × List RangeItem) hwf
      have hhead := (List.nodup_cons.mp hnd).1
      have hnotin : ∀ x ∈ es, x.1 ≠ ek := by
        intro x hx hxe
        have hmm : x.1 ∈ es.map Prod.fst := List.mem_map_of_mem Prod.fst hx
        rw [hxe] at hmm
        exact hhead hmm
      obtain ⟨hf2, hr2⟩ := processFiles_frame rid br ts es
        (processOneFile rid br ts db (ek, rs)) f ek hwf1 hfmem hfkey hnotin
      refine ⟨f, ?_, hfkey, ?_⟩
      · show f ∈ (processFiles rid br ts es (processOneFile rid br ts db (ek, rs))).files
        exact hf2
      · show (processFiles rid br ts es (processOneFile rid br ts db (ek, rs))).ranges.filter
            (fun x => x.file_id == f.id) = rs.map (mkRangeRow f.id ts)
        rw [hr2]
        exact hfilt
    · have hnd' := (List.nodup_cons.mp hnd).2
      obtain ⟨f, h1, h2, h3⟩ := ih (processOneFile rid br ts db e) ek rs hwf1 hnd' hmem'
      refine ⟨f, ?_, h2, ?_⟩
      · show f ∈ (processFiles rid br ts es (processOneFile rid br ts db e)).files
        exact h1
      · show (processFiles rid br ts es (processOneFile rid br ts db e)).ranges.filter
            (fun x => x.file_id == f.id) = rs.map (mkRangeRow f.id ts)
        exact h3

/-- `result[file_path].append(...)` extends the key list by at most the
new key, and appends it only when it was absent. -/
theorem assocAppend_keys [BEq α] [LawfulBEq α] :
    ∀ (acc : List (α × List β)) (k : α) (v : β),
      (k ∈ acc.map Prod.fst ∧ (assocAppend acc k v).map Prod.fst = acc.map Prod.fst) ∨
      (k ∉ acc.map Prod.fst ∧
        (assocAppend acc k v).map Prod.fst = acc.map Prod.fst ++ [k]) := by
  intro acc
  induction acc with
  | nil =>
    intro k v
    right
    exact ⟨by simp, rfl⟩
  | cons p rest ih =>
    intro k v
    obtain ⟨k0, vs⟩ := p
    by_cases hbe : k0 = k
    · left
      constructor
      · rw [List.map_cons]
        exact hbe ▸ List.mem_cons_self _ _
      · have hred : assocAppend ((k0, vs) :: rest) k v = (k0, vs ++ [v]) :: rest := by
          unfold assocAppend
          rw [if_pos (beq_iff_eq.mpr hbe)]
        rw [hred, List.map_cons, List.map_cons]
    · have hbne : (k0 == k) = false := by
        cases h : (k0 == k) with
        | false => rfl
        | true => exact absurd (eq_of_beq h) hbe
      have hne' : ¬((k0 == k) = true) := by
        intro h
        rw [h] at hbne
        cases hbne
      have hred : assocAppend ((k0, vs) :: rest) k v = (k0, vs) :: assocAppend rest k v := by
        show (if (k0 == k) = true then (k0, vs ++ [v]) :: rest
            else (k0, vs) :: assocAppend rest k v)
          = (k0, vs) :: assocAppend rest k v
        rw [if_neg hne']
      rcases ih k v with ⟨hmem, heq⟩ | ⟨hmem, heq⟩
      · left
        refine ⟨?_, ?_⟩
        · rw [List.map_cons]
          exact List.mem_cons_of_mem _ hmem
        · rw [hred, List.map_cons, heq, List.map_cons]
      · right
        refine ⟨?_, ?_⟩
        · rw [List.map_cons]
          intro hcon
          rcases List.mem_cons.mp hcon with h | h
          · exact hbe h.symm
          · exact hmem h
        · rw [hred, List.map_cons, heq, List.map_cons, List.cons_append]

/-- The dict built by the parser loop has pairwise-distinct keys. -/
theorem groupPairs_keys_nodup [BEq α] [LawfulBEq α] (ps : List (α × β)) :
    ((groupPairs ps).map Prod.fst).Nodup := by
  have key : ∀ (qs : List (α × β)) (acc : List (α × List β)),
      (acc.map Prod.fst).Nodup →
      ((qs.foldl (fun a p => assocAppend a p.1 p.2) acc).map Prod.fst).Nodup := by
    intro qs
    induction qs with
    | nil => intro acc h; exact h
    | cons p rest ih =>
      intro acc h
      show ((rest.foldl (fun a x => assocAppend a x.1 x.2) (assocAppend acc p.1 p.2)).map
        Prod.fst).Nodup
      apply ih
      rcases assocAppend_keys acc p.1 p.2 with ⟨_, heq⟩ | ⟨hmem, heq⟩
      · rw [heq]
        exact h
      · rw [heq, List.nodup_append]
        refine ⟨h, List.nodup_singleton _, ?_⟩
        intro a ha hb
        rw [List.mem_singleton] at hb
        subst hb
        exact hmem ha
  exact key ps [] (by simp)

/-- Every parser reachable through the format dispatch groups blocks by
file path with distinct keys. -/
theorem parse_by_format_keys_nodup (fmt raw : PyStr) (entries : List (PyStr × List RangeItem))
    (h : parse_by_format fmt raw = some entries) : (entries.map Prod.fst).Nodup := by
  unfold parse_by_format at h
  by_cases h1 : fmt = "goc".data
  · rw [if_pos h1] at h
    injection h with h
    subst h
    exact groupPairs_keys_nodup _
  · rw [if_neg h1] at h
    by_cases h2 : fmt = "pyca".data ∨ fmt = "pca".data
    · rw [if_pos h2] at h
      injection h with h
      subst h
      exact groupPairs_keys_nodup _
    · rw [if_neg h2] at h
      by_cases h3 : fmt = "jacoco".data
      · rw [if_pos h3] at h
        injection h with h
        subst h
        exact groupPairs_keys_nodup _
      · rw [if_neg h3] at h
        cases h

/-- The report upsert leaves the file, range and config tables and the
id counter untouched. -/
theorem ingestUpsertReport_tables (db0 : DB) (msg : Msg) (now : Int) (rn bb : PyStr) :
    (ingestUpsertReport db0 msg now rn bb).files = db0.files ∧
    (ingestUpsertReport db0 msg now rn bb).ranges = db0.ranges ∧
    (ingestUpsertReport db0 msg now rn bb).nextFileId = db0.nextFileId := by
  unfold ingestUpsertReport
  cases lookupReport db0 msg.repo_id msg.branch <;> exact ⟨rfl, rfl, rfl⟩

/-- File-table well-formedness survives the report upsert. -/
theorem ingestUpsertReport_wf (db0 : DB) (msg : Msg) (now : Int) (rn bb : PyStr)
    (h : filesWF db0) : filesWF (ingestUpsertReport db0 msg now rn bb) := by
  obtain ⟨hfl, hrg, hnx⟩ := ingestUpsertReport_tables db0 msg now rn bb
  obtain ⟨h1, h2, h3⟩ := h
  refine ⟨?_, ?_, ?_⟩
  · rw [hfl]
    exact h1
  · rw [hfl, hnx]
    exact h2
  · rw [hfl]
    exact h3

/-- The finalize phase leaves the id counter alone. -/
theorem ingestFinalize_nextFileId (db2 : DB) (msg : Msg) (rangesTs : Int) (env : MatEnv)
    (bc0 : PyStr) :
    (ingestFinalize db2 msg rangesTs env bc0).nextFileId = db2.nextFileId := by
  have hred : ingestFinalize db2 msg rangesTs env bc0
      = setReport
          (if (env.cloneTarget == some true) && bc0.isEmpty then
            match env.baseResolved with
            | some bc =>
              if bc ≠ [] then
                setReport db2 msg.repo_id msg.branch (fun r => { r with base_commit := bc })
              else db2
            | none => db2
          else db2)
          msg.repo_id msg.branch
          (fun r => { r with status := "completed".data, updated_at := rangesTs }) := by
    unfold ingestFinalize
    rfl
  rw [hred]
  by_cases hcl : ((env.cloneTarget == some true) && bc0.isEmpty) = true
  · rw [if_pos hcl]
    cases hbr : env.baseResolved with
    | none => rfl
    | some bc =>
      show (setReport
          (if bc ≠ [] then
            setReport db2 msg.repo_id msg.branch (fun r => { r with base_commit := bc })
          else db2)
          msg.repo_id msg.branch
          (fun r => { r with status := "completed".data, updated_at := rangesTs })).nextFileId
        = db2.nextFileId
      by_cases hbce : bc ≠ []
      · rw [if_pos hbce]
        rfl
      · rw [if_neg hbce]
        rfl
  · rw [if_neg hcl]
    rfl

/-- Key lookup on an association list: matching head. -/
theorem find?_pair_cons_pos [BEq α] (j k0 : α) (c : γ) (l : List (α × γ))
    (h : (k0 == j) = true) :
    ((k0, c) :: l).find? (fun p => p.1 == j) = some (k0, c) := by
  rw [List.find?_cons]
  show (match (k0 == j) with
    | true => some (k0, c)
    | false => l.find? (fun p => p.1 == j)) = some (k0, c)
  rw [h]

/-- Key lookup on an association list: non-matching head. -/
theorem find?_pair_cons_neg [BEq α] (j k0 : α) (c : γ) (l : List (α × γ))
    (h : (k0 == j) = false) :
    ((k0, c) :: l).find? (fun p => p.1 == j) = l.find? (fun p => p.1 == j) := by
  rw [List.find?_cons]
  show (match (k0 == j) with
    | true => some (k0, c)
    | false => l.find? (fun p => p.1 == j)) = l.find? (fun p => p.1 == j)
  rw [h]

/-- Effect of one `result[...].append` step on a key lookup in the
association list. -/
theorem assocAppend_find? [BEq α] [LawfulBEq α] (k : α) (v : β) (j : α) :
    ∀ acc : List (α × List β),
      (assocAppend acc k v).find? (fun p => p.1 == j)
        = if k == j then
            match acc.find? (fun p => p.1 == j) with
            | some kv => some (kv.1, kv.2 ++ [v])
            | none => some (k, [v])
          else acc.find? (fun p => p.1 == j) := by
  intro acc
  induction acc with
  | nil =>
    by_cases hkj : (k == j) = true
    · rw [if_pos hkj]
      show [(k, [v])].find? (fun p => p.1 == j) = some (k, [v])
      exact find?_pair_cons_pos j k [v] [] hkj
    · rw [if_neg hkj]
      have hkj' : (k == j) = false := by
        cases hh : (k == j) with
        | false => rfl
        | true => exact absurd hh hkj
      show [(k, [v])].find? (fun p => p.1 == j) = none
      rw [find?_pair_cons_neg j k [v] [] hkj']
      rfl
  | cons q rest ih =>
    obtain ⟨k0, vs⟩ := q
    by_cases hkj : (k == j) = true
    · rw [if_pos hkj]
      have hkeq : k = j := eq_of_beq hkj
      by_cases h0 : (k0 == k) = true
      · have h0eq : k0 = k := eq_of_beq h0
        have hred : assocAppend ((k0, vs) :: rest) k v = (k0, vs ++ [v]) :: rest := by
          show (if (k0 == k) = true then (k0, vs ++ [v]) :: rest
              else (k0, vs) :: assocAppend rest k v)
            = (k0, vs ++ [v]) :: rest
          rw [if_pos h0]
        have h0j : (k0 == j) = true := beq_iff_eq.mpr (h0eq.trans hkeq)
        rw [hred, find?_pair_cons_pos j k0 (vs ++ [v]) rest h0j,
          find?_pair_cons_pos j k0 vs rest h0j]
      · have h0j : (k0 == j) = false := by
          cases hh : (k0 == j) with
          | false => rfl
          | true => exact absurd (beq_iff_eq.mpr ((eq_of_beq hh).trans hkeq.symm)) h0
        have hred : assocAppend ((k0, vs) :: rest) k v
            = (k0, vs) :: assocAppend rest k v := by
          show (if (k0 == k) = true then (k0, vs ++ [v]) :: rest
              else (k0, vs) :: assocAppend rest k v)
            = (k0, vs) :: assocAppend rest k v
          rw [if_neg h0]
        rw [hred, find?_pair_cons_neg j k0 vs (assocAppend rest k v) h0j,
          find?_pair_cons_neg j k0 vs rest h0j, ih, if_pos hkj]
    · rw [if_neg hkj]
      by_cases h0 : (k0 == k) = true
      · have h0eq : k0 = k := eq_of_beq h0
        have hred : assocAppend ((k0, vs) :: rest) k v = (k0, vs ++ [v]) :: rest := by
          show (if (k0 == k) = true then (k0, vs ++ [v]) :: rest
              else (k0, vs) :: assocAppend rest k v)
            = (k0, vs ++ [v]) :: rest
          rw [if_pos h0]
        have h0j : (k0 == j) = false := by
          cases hh : (k0 == j) with
          | false => rfl
          | true => exact absurd (h0eq ▸ hh) hkj
        rw [hred, find?_pair_cons_neg j k0 (vs ++ [v]) rest h0j,
          find?_pair_cons_neg j k0 vs rest h0j]
      · have hred : assocAppend ((k0, vs) :: rest) k v
            = (k0, vs) :: assocAppend rest k v := by
          show (if (k0 == k) = true then (k0, vs ++ [v]) :: rest
              else (k0, vs) :: assocAppend rest k v)
            = (k0, vs) :: assocAppend rest k v
          rw [if_neg h0]
        rw [hred]
        by_cases h0j : (k0 == j) = true
        · rw [find?_pair_cons_pos j k0 vs (assocAppend rest k v) h0j,
            find?_pair_cons_pos j k0 vs rest h0j]
        · have h0j' : (k0 == j) = false := by
            cases hh : (k0 == j) with
            | false => rfl
            | true => exact absurd hh h0j
          rw [find?_pair_cons_neg j k0 vs (assocAppend rest k v) h0j',
            find?_pair_cons_neg j k0 vs rest h0j', ih, if_neg hkj]

/-- Folding the whole pair list: a key already present keeps its entry,
extended by the values carried by that key. -/
theorem foldl_assocAppend_some [BEq α] [LawfulBEq α] (j : α) :
    ∀ (ps : List (α × β)) (acc : List (α × List β)) (kv : α × List β),
      acc.find? (fun q => q.1 == j) = some kv →
      (ps.foldl (fun a p => assocAppend a p.1 p.2) acc).find? (fun q => q.1 == j)
        = some (kv.1, kv.2 ++ (ps.filter (fun q => q.1 == j)).map Prod.snd) := by
  intro ps
  induction ps with
  | nil =>
    intro acc kv h
    rw [List.foldl_nil, h]
    simp
  | cons p ps ih =>
    intro acc kv h
    show (ps.foldl (fun a q => assocAppend a q.1 q.2) (assocAppend acc p.1 p.2)).find?
        (fun q => q.1 == j)
      = some (kv.1, kv.2 ++ ((p :: ps).filter (fun q => q.1 == j)).map Prod.snd)
    by_cases hpj : (p.1 == j) = true
    · have h' : (assocAppend acc p.1 p.2).find? (fun q => q.1 == j)
          = some (kv.1, kv.2 ++ [p.2]) := by
        rw [assocAppend_find? p.1 p.2 j acc, if_pos hpj, h]
      rw [ih (assocAppend acc p.1 p.2) (kv.1, kv.2 ++ [p.2]) h',
        @List.filter_cons_of_pos (α × β) (fun q => q.1 == j) p ps hpj,
        List.map_cons, List.append_assoc]
      rfl
    · have h' : (assocAppend acc p.1 p.2).find? (fun q => q.1 == j) = some kv := by
        rw [assocAppend_find? p.1 p.2 j acc, if_neg hpj, h]
      rw [ih (assocAppend acc p.1 p.2) kv h',
        @List.filter_cons_of_neg (α × β) (fun q => q.1 == j) p ps hpj]

/-- Folding the whole pair list: an absent key ends with exactly the
values carried by that key, in order, or stays absent. -/
theorem foldl_assocAppend_none [BEq α] [LawfulBEq α] (j : α) :
    ∀ (ps : List (α × β)) (acc : List (α × List β)),
      acc.find? (fun q => q.1 == j) = none →
      (ps.foldl (fun a p => assocAppend a p.1 p.2) acc).find? (fun q => q.1 == j)
        = if (ps.filter (fun q => q.1 == j)).isEmpty then none
          else some (j, (ps.filter (fun q => q.1 == j)).map Prod.snd) := by
  intro ps
  induction ps with
  | nil =>
    intro acc h
    rw [List.foldl_nil, h]
    rfl
  | cons p ps ih =>
    intro acc h
    show (ps.foldl (fun a q => assocAppend a q.1 q.2) (assocAppend acc p.1 p.2)).find?
        (fun q => q.1 == j)
      = if ((p :: ps).filter (fun q => q.1 == j)).isEmpty then none
        else some (j, ((p :: ps).filter (fun q => q.1 == j)).map Prod.snd)
    by_cases hpj : (p.1 == j) = true
    · have h' : (assocAppend acc p.1 p.2).find? (fun q => q.1 == j) = some (p.1, [p.2]) := by
        rw [assocAppend_find? p.1 p.2 j acc, if_pos hpj, h]
      rw [foldl_assocAppend_some j ps (assocAppend acc p.1 p.2) (p.1, [p.2]) h',
        @List.filter_cons_of_pos (α × β) (fun q => q.1 == j) p ps hpj,
        List.map_cons, if_neg (by simp)]
      rw [eq_of_beq hpj]
      rfl
    · have h' : (assocAppend acc p.1 p.2).find? (fun q => q.1 == j) = none := by
        rw [assocAppend_find? p.1 p.2 j acc, if_neg hpj, h]
      rw [ih (assocAppend acc p.1 p.2) h',
        @List.filter_cons_of_neg (α × β) (fun q => q.1 == j) p ps hpj]

/-- Filtering an arithmetic progression for one value keeps exactly that
value when it lies in the covered interval. -/
theorem rangeMap_filter (start n : Int) :
    ∀ cnt : Nat,
      ((List.range cnt).map (fun k : Nat => start + (k : Int))).filter (fun m => m == n)
        = if start ≤ n ∧ n < start + (cnt : Int) then [n] else [] := by
  intro cnt
  induction cnt with
  | zero =>
    rw [if_neg (by omega)]
    rfl
  | succ cnt ih =>
    rw [List.range_succ, List.map_append, List.filter_append, ih]
    by_cases hc : ((start + (cnt : Int)) == n) = true
    · have he : start + (cnt : Int) = n := eq_of_beq hc
      rw [if_neg (by omega)]
      have hlast' : (([cnt].map (fun k : Nat => start + (k : Int))).filter (fun m => m == n))
          = [n] := by
        simp [List.filter, he]
      rw [hlast', if_pos (by omega)]
      rfl
    · have hne : start + (cnt : Int) ≠ n := fun he => hc (beq_iff_eq.mpr he)
      have hcf : ((start + (cnt : Int)) == n) = false := by
        cases hh : ((start + (cnt : Int)) == n) with
        | false => rfl
        | true => exact absurd hh hc
      have hlast : (([cnt].map (fun k : Nat => start + (k : Int))).filter (fun m => m == n))
          = [] := by
        simp [List.filter, hcf]
      rw [hlast, List.append_nil]
      by_cases hcond : start ≤ n ∧ n < start + (cnt : Int)
      · rw [if_pos hcond, if_pos (by push_cast; omega)]
      · rw [if_neg hcond, if_neg (by push_cast; omega)]

/-- The lines a block expands to are exactly the lines it covers. -/
theorem blockLines_filter (b : CoverageBlock) (n : Int) :
    (blockLines b).filter (fun m => m == n) = if b.covers_line n then [n] else [] := by
  unfold blockLines
  rw [rangeMap_filter b.start_line n ((b.end_line + 1 - b.start_line).toNat)]
  unfold CoverageBlock.covers_line
  by_cases h : b.start_line ≤ n ∧ n ≤ b.end_line
  · rw [if_pos (by omega), if_pos (by simp [h.1, h.2])]
  · rw [if_neg (by omega), if_neg (by simpa using h)]

/-- Filter commutes with flatMap. -/
theorem flatMap_filter (f : γ → List δ) (q : δ → Bool) :
    ∀ l : List γ, (l.flatMap f).filter q = l.flatMap (fun x => (f x).filter q) := by
  intro l
  induction l with
  | nil => rfl
  | cons x xs ih =>
    rw [List.flatMap_cons, List.filter_append, ih, List.flatMap_cons]

/-- Collapsing the per-block conditional singleton lists. -/
theorem flatMap_if_singleton (p : CoverageBlock → Bool) (n : Int) :
    ∀ blocks : List CoverageBlock,
      blocks.flatMap (fun b => if p b then [((n, b) : Int × CoverageBlock)] else [])
        = (blocks.filter p).map (fun b => (n, b)) := by
  intro blocks
  induction blocks with
  | nil => rfl
  | cons b bs ih =>
    rw [List.flatMap_cons, ih]
    by_cases hb : p b = true
    · rw [if_pos hb, @List.filter_cons_of_pos CoverageBlock p b bs hb, List.map_cons]
      rfl
    · rw [if_neg hb, @List.filter_cons_of_neg CoverageBlock p b bs hb]
      rfl

/-- `line_to_blocks[n]` holds exactly the blocks covering line `n`, in
block order, and the key is present only when some block covers `n`. -/
theorem idxLookup_build (blocks : List CoverageBlock) (n : Int) :
    idxLookup (build_coverage_index blocks) n
      = if (blocks.filter (fun b => b.covers_line n)).isEmpty then none
        else some (blocks.filter (fun b => b.covers_line n)) := by
  have hper : ∀ b : CoverageBlock,
      ((blockLines b).map (fun m => ((m, b) : Int × CoverageBlock))).filter
          (fun q => q.1 == n)
        = if b.covers_line n then [((n, b) : Int × CoverageBlock)] else [] := by
    intro b
    rw [List.filter_map]
    show ((blockLines b).filter (fun m => m == n)).map
        (fun m => ((m, b) : Int × CoverageBlock)) = _
    rw [blockLines_filter b n]
    by_cases hb : b.covers_line n = true
    · rw [if_pos hb, if_pos hb]
      rfl
    · rw [if_neg hb, if_neg hb]
      rfl
  have hkey : (blocks.flatMap (fun b => (blockLines b).map (fun m =>
        ((m, b) : Int × CoverageBlock)))).filter (fun q => q.1 == n)
      = (blocks.filter (fun b => b.covers_line n)).map (fun b => (n, b)) := by
    rw [flatMap_filter _ _ blocks]
    have hfun : (fun b => ((blockLines b).map (fun m =>
          ((m, b) : Int × CoverageBlock))).filter (fun q => q.1 == n))
        = (fun b => if b.covers_line n then [((n, b) : Int × CoverageBlock)] else []) :=
      funext hper
    rw [hfun, flatMap_if_singleton]
  show ((build_coverage_index blocks).find? (fun p => p.1 == n)).map Prod.snd = _
  unfold build_coverage_index groupPairs
  rw [foldl_assocAppend_none n
    (blocks.flatMap (fun b => (blockLines b).map (fun m => (m, b)))) [] rfl, hkey]
  cases hc : blocks.filter (fun b => b.covers_line n) with
  | nil => rfl
  | cons c cs =>
    show (some ((n : Int), (((c :: cs).map (fun b => ((n, b) : Int × CoverageBlock))).map
        Prod.snd))).map Prod.snd = some (c :: cs)
    rw [List.map_map]
    have hid : (Prod.snd ∘ fun b : CoverageBlock => ((n, b) : Int × CoverageBlock))
        = id := funext (fun b => rfl)
    rw [hid, List.map_id]
    rfl

/-- `max(...)` over a fold never drops below its seed. -/
theorem foldl_max_init :
    ∀ (cs : List CoverageBlock) (a : Int), a ≤ cs.foldl (fun x y => max x y.hit) a := by
  intro cs
  induction cs with
  | nil => intro a; exact le_refl a
  | cons c cs ih =>
    intro a
    exact le_trans (le_max_left a c.hit) (ih (max a c.hit))

/-- `max(...)` over a fold dominates every folded element. -/
theorem foldl_max_mem :
    ∀ (cs : List CoverageBlock) (a : Int) (b : CoverageBlock),
      b ∈ cs → b.hit ≤ cs.foldl (fun x y => max x y.hit) a := by
  intro cs
  induction cs with
  | nil =>
    intro a b hb
    simp at hb
  | cons c cs ih =>
    intro a b hb
    rcases List.mem_cons.mp hb with hbc | hbcs
    · subst hbc
      exact le_trans (le_max_right a b.hit) (foldl_max_init cs (max a b.hit))
    · exact ih (max a c.hit) b hbcs

/-- The fold's value is its seed or the hit of one of the elements. -/
theorem foldl_max_attained :
    ∀ (cs : List CoverageBlock) (a : Int),
      cs.foldl (fun x y => max x y.hit) a = a ∨
      ∃ b ∈ cs, cs.foldl (fun x y => max x y.hit) a = b.hit := by
  intro cs
  induction cs with
  | nil => intro a; left; rfl
  | cons c cs ih =>
    intro a
    rcases ih (max a c.hit) with hl | ⟨b, hb, he⟩
    · rcases le_total a c.hit with hac | hca
      · right
        refine ⟨c, List.mem_cons_self c cs, ?_⟩
        show cs.foldl (fun x y => max x y.hit) (max a c.hit) = c.hit
        rw [hl, max_eq_right hac]
      · left
        show cs.foldl (fun x y => max x y.hit) (max a c.hit) = a
        rw [hl, max_eq_left hca]
    · right
      exact ⟨b, List.mem_cons_of_mem c hb, he⟩

/-- An emitted merged line keeps the line number it classifies. -/
theorem mergeLine_line_number (idx : CovIndex) (m : Int) (dl : DiffCoverageLine)
    (h : mergeLine idx m = some dl) : dl.line_number = m := by
  unfold mergeLine at h
  cases hg : get_line_coverage idx m with
  | none =>
    rw [hg] at h
    cases h
  | some c =>
    rw [hg] at h
    injection h with h
    rw [← h]

/-- C8 — Merged line verdicts. For every added line `n` of a diffed
file: when no indexed block covers `n` the classifier returns nothing
and no line numbered `n` appears in the merger's output record; when the
covering blocks are `c :: cs` the line is emitted with status
`new_covered` exactly if some covering block has `hit > 0`
(`new_uncovered` otherwise), and its hit count is the maximum hit over
all blocks covering `n` (it dominates them all and is attained). -/
theorem merged_line_verdicts (blocks : List CoverageBlock) (hunks : List DiffHunk)
    (oldIdx : Option CovIndex) (fr : DiffCoverageFile)
    (hfr : fr ∈ merge_diff_and_coverage hunks (build_coverage_index blocks) oldIdx)
    (n : Int) :
    (blocks.filter (fun b => b.covers_line n) = [] →
      mergeLine (build_coverage_index blocks) n = none ∧
      ∀ dl ∈ fr.lines, dl.line_number ≠ n) ∧
    (∀ c cs, blocks.filter (fun b => b.covers_line n) = c :: cs →
      mergeLine (build_coverage_index blocks) n
        = some { line_number := n,
                 status := if (c :: cs).any CoverageBlock.is_covered
                   then DiffStatus.new_covered else DiffStatus.new_uncovered,
                 hit_count := cs.foldl (fun x y => max x y.hit) c.hit,
                 is_new := true } ∧
      ((c :: cs).any CoverageBlock.is_covered = true ↔
        ∃ b ∈ blocks, b.covers_line n = true ∧ b.hit > 0) ∧
      (∀ b ∈ blocks, b.covers_line n = true →
        b.hit ≤ cs.foldl (fun x y => max x y.hit) c.hit) ∧
      cs.foldl (fun x y => max x y.hit) c.hit ∈ (c :: cs).map CoverageBlock.hit) := by
  refine ⟨?_, ?_⟩
  · intro h
    have hidx : idxLookup (build_coverage_index blocks) n = none := by
      rw [idxLookup_build, h]
      rfl
    have hglc : get_line_coverage (build_coverage_index blocks) n = none := by
      unfold get_line_coverage
      rw [hidx]
    have hml : mergeLine (build_coverage_index blocks) n = none := by
      unfold mergeLine
      rw [hglc]
    refine ⟨hml, ?_⟩
    intro dl hdl
    obtain ⟨e, he, hfe⟩ := List.mem_map.mp hfr
    rw [← hfe] at hdl
    have hlines : (mkFileRecord (build_coverage_index blocks) e.1 e.2).lines
        = (pySortedSet (e.2.foldl (fun acc h => acc ++ h.added_lines) [])).filterMap
            (mergeLine (build_coverage_index blocks)) := rfl
    rw [hlines] at hdl
    obtain ⟨m, hm, hsome⟩ := List.mem_filterMap.mp hdl
    intro hln
    have hmn : m = n :=
      (mergeLine_line_number (build_coverage_index blocks) m dl hsome).symm.trans hln
    rw [hmn, hml] at hsome
    cases hsome
  · intro c cs h
    have hidx : idxLookup (build_coverage_index blocks) n = some (c :: cs) := by
      rw [idxLookup_build, h]
      rfl
    have hhit : get_line_hit_count (build_coverage_index blocks) n
        = cs.foldl (fun x y => max x y.hit) c.hit := by
      unfold get_line_hit_count
      rw [hidx]
    have hglc_t : (c :: cs).any CoverageBlock.is_covered = true →
        get_line_coverage (build_coverage_index blocks) n = some true := by
      intro hany
      unfold get_line_coverage
      rw [hidx]
      show (if (c :: cs).isEmpty = true then none
          else if (c :: cs).any CoverageBlock.is_covered = true then some true else some false)
        = some true
      rw [if_neg (show ¬((c :: cs).isEmpty = true) from by simp), hany, if_pos rfl]
    have hglc_f : (c :: cs).any CoverageBlock.is_covered = false →
        get_line_coverage (build_coverage_index blocks) n = some false := by
      intro hany
      unfold get_line_coverage
      rw [hidx]
      show (if (c :: cs).isEmpty = true then none
          else if (c :: cs).any CoverageBlock.is_covered = true then some true else some false)
        = some false
      rw [if_neg (show ¬((c :: cs).isEmpty = true) from by simp), hany,
        if_neg (show ¬(false = true) from Bool.false_ne_true)]
    have hA : mergeLine (build_coverage_index blocks) n
        = some { line_number := n,
                 status := if (c :: cs).any CoverageBlock.is_covered
                   then DiffStatus.new_covered else DiffStatus.new_uncovered,
                 hit_count := cs.foldl (fun x y => max x y.hit) c.hit,
                 is_new := true } := by
      cases hany : (c :: cs).any CoverageBlock.is_covered with
      | true =>
        have hglc := hglc_t hany
        unfold mergeLine
        rw [hglc]
        show (some { line_number := n,
                     status := if (true : Bool) then DiffStatus.new_covered
                       else DiffStatus.new_uncovered,
                     hit_count := get_line_hit_count (build_coverage_index blocks) n,
                     is_new := true } : Option DiffCoverageLine) = _
        rw [hhit]
      | false =>
        have hglc := hglc_f hany
        unfold mergeLine
        rw [hglc]
        show (some { line_number := n,
                     status := if (false : Bool) then DiffStatus.new_covered
                       else DiffStatus.new_uncovered,
                     hit_count := get_line_hit_count (build_coverage_index blocks) n,
                     is_new := true } : Option DiffCoverageLine) = _
        rw [hhit]
    have hB : (c :: cs).any CoverageBlock.is_covered = true ↔
        ∃ b ∈ blocks, b.covers_line n = true ∧ b.hit > 0 := by
      constructor
      · intro ha
        obtain ⟨b, hbmem, hbcov⟩ := List.any_eq_true.mp ha
        rw [← h] at hbmem
        obtain ⟨hbb, hbcl⟩ := List.mem_filter.mp hbmem
        exact ⟨b, hbb, hbcl, of_decide_eq_true hbcov⟩
      · rintro ⟨b, hbb, hbcl, hbhit⟩
        have hbf : b ∈ blocks.filter (fun x => x.covers_line n) :=
          List.mem_filter.mpr ⟨hbb, hbcl⟩
        rw [h] at hbf
        exact List.any_eq_true.mpr ⟨b, hbf, decide_eq_true hbhit⟩
    have hC : ∀ b ∈ blocks, b.covers_line n = true →
        b.hit ≤ cs.foldl (fun x y => max x y.hit) c.hit := by
      intro b hbb hbcl
      have hbf : b ∈ blocks.filter (fun x => x.covers_line n) :=
        List.mem_filter.mpr ⟨hbb, hbcl⟩
      rw [h] at hbf
      rcases List.mem_cons.mp hbf with hbc | hbcs
      · subst hbc
        exact foldl_max_init cs b.hit
      · exact foldl_max_mem cs c.hit b hbcs
    have hD : cs.foldl (fun x y => max x y.hit) c.hit ∈ (c :: cs).map CoverageBlock.hit := by
      rcases foldl_max_attained cs c.hit with hl | ⟨b, hb, he⟩
      · rw [hl]
        exact List.mem_map_of_mem CoverageBlock.hit (List.mem_cons_self c cs)
      · rw [he]
        exact List.mem_map_of_mem CoverageBlock.hit (List.mem_cons_of_mem c hb)
    exact ⟨hA, hB, hC, hD⟩

/-- Witness for `merged_line_verdicts`: two blocks (lines 10-11 hit 5,
line 12 hit 0) against added lines 10-13 — line 13 is excluded, line 12
comes out `new_uncovered` with hit 0, line 10 `new_covered` with hit 5. -/
theorem merged_line_verdicts_witness :
    ((mkFileRecord (build_coverage_index
        ([⟨10, 1, 11, 9, 2, 5⟩, ⟨12, 1, 12, 9, 1, 0⟩] : List CoverageBlock))
        "a.go".data
        [⟨"a.go".data, 1, 0, 10, 4, [10, 11, 12, 13], []⟩])
      ∈ merge_diff_and_coverage [⟨"a.go".data, 1, 0, 10, 4, [10, 11, 12, 13], []⟩]
          (build_coverage_index
            ([⟨10, 1, 11, 9, 2, 5⟩, ⟨12, 1, 12, 9, 1, 0⟩] : List CoverageBlock)) none) ∧
    ([⟨10, 1, 11, 9, 2, 5⟩, ⟨12, 1, 12, 9, 1, 0⟩] : List CoverageBlock).filter
        (fun b => b.covers_line 13) = [] ∧
    (∀ dl ∈ (mkFileRecord (build_coverage_index
        ([⟨10, 1, 11, 9, 2, 5⟩, ⟨12, 1, 12, 9, 1, 0⟩] : List CoverageBlock))
        "a.go".data
        [⟨"a.go".data, 1, 0, 10, 4, [10, 11, 12, 13], []⟩]).lines,
      dl.line_number ≠ 13) ∧
    mergeLine (build_coverage_index
        ([⟨10, 1, 11, 9, 2, 5⟩, ⟨12, 1, 12, 9, 1, 0⟩] : List CoverageBlock)) 12
      = some { line_number := 12, status := DiffStatus.new_uncovered, hit_count := 0,
               is_new := true } ∧
    mergeLine (build_coverage_index
        ([⟨10, 1, 11, 9, 2, 5⟩, ⟨12, 1, 12, 9, 1, 0⟩] : List CoverageBlock)) 10
      = some { line_number := 10, status := DiffStatus.new_covered, hit_count := 5,
               is_new := true } := by
  refine ⟨by decide, by decide, ?_, ?_, ?_⟩
  · exact ((merged_line_verdicts
      ([⟨10, 1, 11, 9, 2, 5⟩, ⟨12, 1, 12, 9, 1, 0⟩] : List CoverageBlock)
      [⟨"a.go".data, 1, 0, 10, 4, [10, 11, 12, 13], []⟩] none
      (mkFileRecord (build_coverage_index
        ([⟨10, 1, 11, 9, 2, 5⟩, ⟨12, 1, 12, 9, 1, 0⟩] : List CoverageBlock))
        "a.go".data
        [⟨"a.go".data, 1, 0, 10, 4, [10, 11, 12, 13], []⟩])
      (by decide) 13).1 (by decide)).2
  · exact ((merged_line_verdicts
      ([⟨10, 1, 11, 9, 2, 5⟩, ⟨12, 1, 12, 9, 1, 0⟩] : List CoverageBlock)
      [⟨"a.go".data, 1, 0, 10, 4, [10, 11, 12, 13], []⟩] none
      (mkFileRecord (build_coverage_index
        ([⟨10, 1, 11, 9, 2, 5⟩, ⟨12, 1, 12, 9, 1, 0⟩] : List CoverageBlock))
        "a.go".data
        [⟨"a.go".data, 1, 0, 10, 4, [10, 11, 12, 13], []⟩])
      (by decide) 12).2 ⟨12, 1, 12, 9, 1, 0⟩ [] (by decide)).1.trans (by decide)
  · exact ((merged_line_verdicts
      ([⟨10, 1, 11, 9, 2, 5⟩, ⟨12, 1, 12, 9, 1, 0⟩] : List CoverageBlock)
      [⟨"a.go".data, 1, 0, 10, 4, [10, 11, 12, 13], []⟩] none
      (mkFileRecord (build_coverage_index
        ([⟨10, 1, 11, 9, 2, 5⟩, ⟨12, 1, 12, 9, 1, 0⟩] : List CoverageBlock))
        "a.go".data
        [⟨"a.go".data, 1, 0, 10, 4, [10, 11, 12, 13], []⟩])
      (by decide) 10).2 ⟨10, 1, 11, 9, 2, 5⟩ [] (by decide)).1.trans (by decide)

/-- C6 — Range replacement. On every successful ingestion (admitted
config, parseable format), for each file entry `(ek, rs)` of the parsed
report the resulting database holds a file row `f` for
`(repo_id, branch, ek)` whose Range rows are exactly the freshly parsed
set `rs` (old rows with that file_id deleted, new set inserted), and the
file table stays well-formed — so a shrunken re-ingestion leaves no
stale Range rows for the file. -/
theorem range_replacement (db0 : DB) (msg : Msg) (now updateNow rangesTs : Int)
    (env : MatEnv) (cfg : Config) (entries : List (PyStr × List RangeItem))
    (ek : PyStr) (rs : List RangeItem)
    (hwf : filesWF db0)
    (hcfg : lookupConfig db0 msg.repo_id = some cfg)
    (hparse : parse_by_format msg.format msg.raw = some entries)
    (hmem : (ek, rs) ∈ entries) :
    filesWF (process_coverage_report db0 msg now updateNow rangesTs env).db ∧
    ∃ f, f ∈ (process_coverage_report db0 msg now updateNow rangesTs env).db.files ∧
      fileKeyIs msg.repo_id msg.branch ek f = true ∧
      (process_coverage_report db0 msg now updateNow rangesTs env).db.ranges.filter
          (fun x => x.file_id == f.id)
        = rs.map (mkRangeRow f.id rangesTs) := by
  obtain ⟨hdb, _⟩ := process_success_form db0 msg now updateNow rangesTs env cfg entries
    hcfg hparse
  have hwf1 : filesWF (ingestUpsertReport db0 msg now cfg.repo_name cfg.base_branch) :=
    ingestUpsertReport_wf db0 msg now cfg.repo_name cfg.base_branch hwf
  have hnd : (entries.map Prod.fst).Nodup :=
    parse_by_format_keys_nodup msg.format msg.raw entries hparse
  obtain ⟨f, hf, hkey, hfilt⟩ := processFiles_establish msg.repo_id msg.branch rangesTs entries
    (ingestUpsertReport db0 msg now cfg.repo_name cfg.base_branch) ek rs hwf1 hnd hmem
  obtain ⟨hwf2, _⟩ := processFiles_wf msg.repo_id msg.branch rangesTs entries
    (ingestUpsertReport db0 msg now cfg.repo_name cfg.base_branch) hwf1
  obtain ⟨g, _, _, hfl3, hrg3, _, _⟩ := ingestFinalize_reports
    (processFiles msg.repo_id msg.branch rangesTs entries
      (ingestUpsertReport db0 msg now cfg.repo_name cfg.base_branch))
    msg rangesTs env
    (((lookupReport (ingestUpsertReport db0 msg now cfg.repo_name cfg.base_branch)
        msg.repo_id msg.branch).map Report.base_commit).getD [])
  have hnx3 := ingestFinalize_nextFileId
    (processFiles msg.repo_id msg.branch rangesTs entries
      (ingestUpsertReport db0 msg now cfg.repo_name cfg.base_branch))
    msg rangesTs env
    (((lookupReport (ingestUpsertReport db0 msg now cfg.repo_name cfg.base_branch)
        msg.repo_id msg.branch).map Report.base_commit).getD [])
  obtain ⟨w1, w2, w3⟩ := hwf2
  refine ⟨⟨?_, ?_, ?_⟩, f, ?_, hkey, ?_⟩
  · rw [hdb, hfl3]
    exact w1
  · rw [hdb, hfl3, hnx3]
    exact w2
  · rw [hdb, hfl3]
    exact w3
  · rw [hdb, hfl3]
    exact hf
  · rw [hdb, hrg3]
    exact hfilt

/-- Witness for `range_replacement`: the second ingestion for
`(42, main)` shrinks `m/f.go` from two blocks to one; afterwards its
Range rows are exactly the single new block — the stale rows written by
the first ingestion are gone. -/
theorem range_replacement_witness :
    filesWF db42after ∧
    lookupConfig db42after msgGocSmall.repo_id = some cfg42 ∧
    parse_by_format msgGocSmall.format msgGocSmall.raw
      = some [("m/f.go".data, [⟨1, 1, 2, 2, 3, 1⟩])] ∧
    (("m/f.go".data, [⟨1, 1, 2, 2, 3, 1⟩]) : PyStr × List RangeItem)
      ∈ [("m/f.go".data, [⟨1, 1, 2, 2, 3, 1⟩])] ∧
    db42after.ranges.length = 2 ∧
    (process_coverage_report db42after msgGocSmall 8 9 10 matEnvNone).db.ranges
      = [mkRangeRow 0 10 ⟨1, 1, 2, 2, 3, 1⟩] ∧
    (filesWF (process_coverage_report db42after msgGocSmall 8 9 10 matEnvNone).db ∧
      ∃ f, f ∈ (process_coverage_report db42after msgGocSmall 8 9 10 matEnvNone).db.files ∧
        fileKeyIs msgGocSmall.repo_id msgGocSmall.branch "m/f.go".data f = true ∧
        (process_coverage_report db42after msgGocSmall 8 9 10 matEnvNone).db.ranges.filter
            (fun x => x.file_id == f.id)
          = [⟨1, 1, 2, 2, 3, 1⟩].map (mkRangeRow f.id 10)) :=
  ⟨by unfold filesWF; decide, by decide, by decide, by decide, by decide, by decide,
    range_replacement db42after msgGocSmall 8 9 10 matEnvNone cfg42
      [("m/f.go".data, [⟨1, 1, 2, 2, 3, 1⟩])] "m/f.go".data [⟨1, 1, 2, 2, 3, 1⟩]
      (by unfold filesWF; decide) (by decide) (by decide) (by decide)⟩

end Orbit
